import Mathlib

/-
A shallow embedding of the BadgerDB buffer manager
(src/BufMgr/src/buffer.cpp) and proofs about its claims.

The only source file of the repository is buffer.cpp.  The collaborators it
uses (BufDesc from buffer.h, the BufHashTbl index, the File page store and
the Page container) are not in the repository snapshot; they are modelled
from the spec's interface contracts (spec.md paragraphs 3, 4.1 and 6), each
such definition carries a doc comment saying so.  File identities are
modelled as natural numbers, page contents as a single natural number.
-/

namespace BadgerDB

/-- Modelled from the spec: a Page is an opaque fixed-size byte container
with an identifier (spec.md paragraph 1 and 6).  The byte contents are
abstracted to one natural number. -/
structure Page where
  page_number : Nat
  data : Nat
  deriving DecidableEq

instance : Inhabited Page := ⟨⟨0, 0⟩⟩

/-- Modelled from the spec: the per-frame descriptor of spec.md paragraph 3
(BufDesc of buffer.h).  `file` is `none` when the frame holds no owner,
matching the NULL file pointer of a cleared frame. -/
structure BufDesc where
  frameNo : Nat
  file : Option Nat
  pageNo : Nat
  valid : Bool
  refbit : Bool
  dirty : Bool
  pinCnt : Nat
  deriving DecidableEq

instance : Inhabited BufDesc := ⟨⟨0, none, 0, false, false, false, 0⟩⟩

/-- Modelled from the spec: BufDesc::Clear, spec.md paragraph 4.1 `clear()`:
resets the frame to the free state, the frame number is immutable. -/
def BufDesc.Clear (d : BufDesc) : BufDesc :=
  { frameNo := d.frameNo, file := none, pageNo := 0,
    valid := false, refbit := false, dirty := false, pinCnt := 0 }

/-- Modelled from the spec: BufDesc::Set, spec.md paragraph 4.1
`markOccupied(owner)`: sets the owner, `valid = true`, `refBit = true`,
`pinCount = 1`, `dirty = false`. -/
def BufDesc.Set (d : BufDesc) (f p : Nat) : BufDesc :=
  { frameNo := d.frameNo, file := some f, pageNo := p,
    valid := true, refbit := true, dirty := false, pinCnt := 1 }

/-- One observable call on the page store (spec.md paragraph 6 contract):
read, write, allocate or delete a page. -/
inductive Ev where
  | read (f p : Nat)
  | write (f p d : Nat)
  | alloc (f : Nat)
  | del (f p : Nat)
  deriving DecidableEq

/-- The errors buffer.cpp can signal (the exception classes it includes). -/
inductive BufError where
  | bufferExceeded
  | pageNotPinned (f p frame : Nat)
  | pagePinned (f p frame : Nat)
  | badBuffer (frame : Nat)
  | hashAlreadyPresent
  deriving DecidableEq

/-- Outcome of one public operation: a normal return carrying the returned
value, or a thrown exception that escapes the method. -/
inductive OpOut (α : Type) where
  | ok (a : α)
  | err (e : BufError)
  deriving DecidableEq

/-- The whole system state: the BufMgr fields of buffer.cpp
(`numBufs`, `bufDescTable`, `bufPool`, `hashTable`, `clockHand`, the
bufStats counters) together with the modelled external page store
(`disk`, `nextPageId`) and the chronological log `events` of page-store
calls. -/
structure BufState where
  numBufs : Nat
  bufDescTable : List BufDesc
  bufPool : List Page
  hashTable : List ((Nat × Nat) × Nat)
  clockHand : Nat
  disk : List ((Nat × Nat) × Nat)
  nextPageId : Nat
  events : List Ev
  accesses : Nat
  diskreads : Nat
  diskwrites : Nat
  deriving DecidableEq

instance : Inhabited BufState :=
  ⟨⟨0, [], [], [], 0, [], 0, [], 0, 0, 0⟩⟩

/-- The frame descriptor at index `i` (bufDescTable[i]). -/
def frameAt (s : BufState) (i : Nat) : BufDesc :=
  s.bufDescTable.getD i default

/-- The pool page at index `i` (bufPool[i]). -/
def poolAt (s : BufState) (i : Nat) : Page :=
  s.bufPool.getD i default

/-- Overwrite the frame descriptor at index `i`. -/
def setFrame (s : BufState) (i : Nat) (d : BufDesc) : BufState :=
  { s with bufDescTable := s.bufDescTable.set i d }

/-- Modelled from the spec: the index contract lookup of spec.md
paragraph 6, `lookup(fileIdentity, pageId) -> frameNumber`, `none` models
the HashNotFoundException outcome. -/
def htLookup (ht : List ((Nat × Nat) × Nat)) (f p : Nat) : Option Nat :=
  (ht.find? (fun e => e.1.1 == f && e.1.2 == p)).map (fun e => e.2)

/-- Modelled from the spec: the index contract insert of spec.md
paragraph 6; `none` models the HashAlreadyPresentException outcome. -/
def htInsert (ht : List ((Nat × Nat) × Nat)) (f p v : Nat) :
    Option (List ((Nat × Nat) × Nat)) :=
  match htLookup ht f p with
  | some _ => none
  | none => some (((f, p), v) :: ht)

/-- Modelled from the spec: the index contract remove of spec.md
paragraph 6, taken in its no-op-safe-if-absent variant (the spec leaves
the absent case as implementer's choice; in buffer.cpp every remove call
is on a present key). -/
def htRemove (ht : List ((Nat × Nat) × Nat)) (f p : Nat) :
    List ((Nat × Nat) × Nat) :=
  ht.filter (fun e => !(e.1.1 == f && e.1.2 == p))

/-- Modelled from the spec: the page store `writePage(pageContents)` call of
spec.md paragraph 6; it records the write in the event log and updates the
durable copy. -/
def storeWrite (s : BufState) (f : Nat) (pg : Page) : BufState :=
  { s with
    disk := ((f, pg.page_number), pg.data) ::
      s.disk.filter (fun e => !(e.1.1 == f && e.1.2 == pg.page_number)),
    events := s.events ++ [Ev.write f pg.page_number pg.data] }

/-- Modelled from the spec: the page store `readPage(pageId)` call of
spec.md paragraph 6. -/
def storeRead (s : BufState) (f p : Nat) : Page × BufState :=
  (⟨p, (((s.disk.find? (fun e => e.1.1 == f && e.1.2 == p)).map
      (fun e => e.2)).getD 0)⟩,
   { s with events := s.events ++ [Ev.read f p] })

/-- Modelled from the spec: the page store `allocatePage()` call of
spec.md paragraph 6, returning a page with a fresh identifier. -/
def storeAlloc (s : BufState) (f : Nat) : Page × BufState :=
  (⟨s.nextPageId, 0⟩,
   { s with nextPageId := s.nextPageId + 1,
            disk := ((f, s.nextPageId), 0) :: s.disk,
            events := s.events ++ [Ev.alloc f] })

/-- Modelled from the spec: the page store `deletePage(pageId)` call of
spec.md paragraph 6. -/
def storeDelete (s : BufState) (f p : Nat) : BufState :=
  { s with disk := s.disk.filter (fun e => !(e.1.1 == f && e.1.2 == p)),
           events := s.events ++ [Ev.del f p] }

/-- BufMgr::BufMgr (buffer.cpp lines 29 to 46): all frames cleared with
their frame number set, empty index, clock hand at `bufs - 1`. -/
def newBufMgr (bufs : Nat) : BufState :=
  { numBufs := bufs,
    bufDescTable := (List.range bufs).map (fun i =>
      { frameNo := i, file := none, pageNo := 0,
        valid := false, refbit := false, dirty := false, pinCnt := 0 }),
    bufPool := List.replicate bufs default,
    hashTable := [],
    clockHand := bufs - 1,
    disk := [], nextPageId := 0, events := [],
    accesses := 0, diskreads := 0, diskwrites := 0 }

/-- BufMgr::advanceClock (buffer.cpp lines 68 to 71). -/
def advanceClock (s : BufState) : BufState :=
  { s with clockHand := (s.clockHand + 1) % s.numBufs }

/-- Result of the clock sweep body of BufMgr::allocBuf: either a victim
frame was found (the `break`), or the `while (counter != numBufs)` loop
ran out with the pinned tally. -/
inductive LapRes where
  | found (frame : Nat) (s : BufState)
  | cont (pinned : Nat) (s : BufState)
  deriving DecidableEq

/-- The state change of the second-chance branch of BufMgr::allocBuf
(buffer.cpp lines 89 to 95): clear the refbit and advance the hand. -/
def secondChance (s : BufState) (h : Nat) (d : BufDesc) : BufState :=
  advanceClock (setFrame s h { d with refbit := false })

/-- The state change of the victim branch of BufMgr::allocBuf (buffer.cpp
lines 103 to 111): write the page back if dirty, clear the frame, remove
its index entry. -/
def victimEvict (s : BufState) (h : Nat) (d : BufDesc) : BufState :=
  let s1 := if d.dirty = true then
      let sw := storeWrite s (d.file.getD 0) (poolAt s h)
      { sw with diskwrites := sw.diskwrites + 1 }
    else s
  let s2 := setFrame s1 h (BufDesc.Clear d)
  { s2 with hashTable := htRemove s2.hashTable (d.file.getD 0) d.pageNo }

/-- The `while (counter != this->numBufs)` loop of BufMgr::allocBuf
(buffer.cpp lines 87 to 115), with `fuel = numBufs - counter` the number
of loop iterations still allowed before the lap is over.  Branches in
source order: valid with refbit set gets its second chance (lines 89 to
95), valid and pinned is tallied and skipped (lines 96 to 102), otherwise
the victim is flushed if dirty, cleared and its index entry removed and
the frame is returned (lines 103 to 114); an invalid frame is returned
immediately. -/
def allocBufLap (s : BufState) (pinned : Nat) : Nat → LapRes
  | 0 => .cont pinned s
  | fuel + 1 =>
    let d := frameAt s s.clockHand
    if d.valid = true then
      if d.refbit = true then
        allocBufLap (secondChance s s.clockHand d) pinned fuel
      else if d.pinCnt ≠ 0 then
        allocBufLap (advanceClock s) (pinned + 1) fuel
      else
        .found s.clockHand (victimEvict s s.clockHand d)
    else
      .found s.clockHand s

/-- The retry structure of BufMgr::allocBuf (buffer.cpp lines 85 and 116 to
125): after a full lap, throw BufferExceededException when every frame was
tallied as pinned, otherwise reset the tallies and `goto start_again`.
The source retries without bound; `laps` is the number of laps this
approximation still allows, and `none` means the budget ran out (the
theorems below show a budget of 2 always suffices). -/
def allocBufLoop (s : BufState) : Nat → Option (OpOut Nat × BufState)
  | 0 => none
  | laps + 1 =>
    match allocBufLap s 0 s.numBufs with
    | .found h t => some (.ok h, t)
    | .cont pinned t =>
      if pinned = t.numBufs then some (.err .bufferExceeded, t)
      else allocBufLoop t laps

/-- BufMgr::allocBuf (buffer.cpp lines 78 to 128): advance the clock once
(line 82), then run the sweep. -/
def allocBuf (laps : Nat) (s : BufState) : Option (OpOut Nat × BufState) :=
  allocBufLoop (advanceClock s) laps

/-- BufMgr::readPage (buffer.cpp lines 139 to 166).  On a hit the refbit is
set and the pin count incremented and a pointer to the frame is returned
(lines 144 to 147).  On a miss a frame is allocated, the page read from
disk into it, the index entry inserted and the frame Set (lines 151 to
156).  A BufferExceededException from allocBuf is caught and mapped to a
NULL page with a normal return (lines 158 to 162), modelled as `.ok none`;
a HashAlreadyPresentException from insert escapes. -/
def readPage (laps f p : Nat) (s0 : BufState) :
    Option (OpOut (Option Nat) × BufState) :=
  let s := { s0 with accesses := s0.accesses + 1 }
  match htLookup s.hashTable f p with
  | some frameNo =>
    let d := frameAt s frameNo
    some (.ok (some frameNo),
      setFrame s frameNo { d with refbit := true, pinCnt := d.pinCnt + 1 })
  | none =>
    match allocBuf laps s with
    | none => none
    | some (.err _, s1) => some (.ok none, s1)
    | some (.ok frameNo, s1) =>
      let pg := (storeRead s1 f p).1
      let sr := (storeRead s1 f p).2
      let s2 := { sr with
        bufPool := sr.bufPool.set frameNo pg,
        diskreads := sr.diskreads + 1 }
      match htInsert s2.hashTable f p frameNo with
      | none => some (.err .hashAlreadyPresent, s2)
      | some ht =>
        let s3 := { s2 with hashTable := ht }
        some (.ok (some frameNo),
          setFrame s3 frameNo (BufDesc.Set (frameAt s3 frameNo) f p))

/-- BufMgr::unPinPage (buffer.cpp lines 176 to 196): absent key is a
no-op, pin count zero throws PageNotPinnedException, otherwise decrement
the pin count and set dirty when asked. -/
def unPinPage (f p : Nat) (dirty : Bool) (s0 : BufState) :
    OpOut Unit × BufState :=
  let s := { s0 with accesses := s0.accesses + 1 }
  match htLookup s.hashTable f p with
  | none => (.ok (), s)
  | some frameNo =>
    let d := frameAt s frameNo
    if d.pinCnt = 0 then (.err (.pageNotPinned f p frameNo), s)
    else
      let d1 := { d with pinCnt := d.pinCnt - 1 }
      let d2 := if dirty then { d1 with dirty := true } else d1
      (.ok (), setFrame s frameNo d2)

/-- The state change of the dirty branch of BufMgr::flushFile (buffer.cpp
lines 220 to 225): write the page back, clear the frame, remove its index
entry. -/
def flushEvict (f : Nat) (s : BufState) (i : Nat) (d : BufDesc) : BufState :=
  let sw := storeWrite s f (poolAt s i)
  let s1 := { sw with diskwrites := sw.diskwrites + 1 }
  let s2 := setFrame s1 i (BufDesc.Clear d)
  { s2 with hashTable := htRemove s2.hashTable f d.pageNo }

/-- The `for (FrameId i = 0; ...)` loop of BufMgr::flushFile (buffer.cpp
lines 210 to 227), `fuel = numBufs - i`.  For a frame owned by the file:
invalid throws BadBufferException, pinned throws PagePinnedException,
dirty is written back, cleared and removed from the index; other frames
are skipped. -/
def flushGo (f : Nat) (s : BufState) (i : Nat) : Nat → OpOut Unit × BufState
  | 0 => (.ok (), s)
  | fuel + 1 =>
    let d := frameAt s i
    if d.file = some f then
      if d.valid = false then (.err (.badBuffer i), s)
      else if d.pinCnt > 0 then (.err (.pagePinned f d.pageNo i), s)
      else if d.dirty = true then
        flushGo f (flushEvict f s i d) (i + 1) fuel
      else flushGo f s (i + 1) fuel
    else flushGo f s (i + 1) fuel

/-- BufMgr::flushFile (buffer.cpp lines 207 to 228). -/
def flushFile (f : Nat) (s0 : BufState) : OpOut Unit × BufState :=
  let s := { s0 with accesses := s0.accesses + 1 }
  flushGo f s 0 s.numBufs

/-- BufMgr::allocPage (buffer.cpp lines 238 to 248): allocate a frame
first, then ask the file for a new page, insert the index entry and Set
the frame.  The BufferExceededException from allocBuf is not caught here
and escapes to the caller. -/
def allocPage (laps f : Nat) (s0 : BufState) :
    Option (OpOut (Nat × Nat) × BufState) :=
  let s := { s0 with accesses := s0.accesses + 1 }
  match allocBuf laps s with
  | none => none
  | some (.err e, s1) => some (.err e, s1)
  | some (.ok frameNo, s1) =>
    let pg := (storeAlloc s1 f).1
    let sa := (storeAlloc s1 f).2
    let s2 := { sa with bufPool := sa.bufPool.set frameNo pg }
    let pageNo := (poolAt s2 frameNo).page_number
    match htInsert s2.hashTable f pageNo frameNo with
    | none => some (.err .hashAlreadyPresent, s2)
    | some ht =>
      let s3 := { s2 with hashTable := ht }
      some (.ok (pageNo, frameNo),
        setFrame s3 frameNo (BufDesc.Set (frameAt s3 frameNo) f pageNo))

/-- BufMgr::disposePage (buffer.cpp lines 257 to 272): absent key returns
at once (note: without calling deletePage, lines 264 to 266); a cached
page has its index entry removed and its frame cleared, then the page is
deleted from the file. -/
def disposePage (f p : Nat) (s0 : BufState) : OpOut Unit × BufState :=
  let s := { s0 with accesses := s0.accesses + 1 }
  match htLookup s.hashTable f p with
  | none => (.ok (), s)
  | some frameNo =>
    let s1 := { s with hashTable := htRemove s.hashTable f p }
    let s2 := setFrame s1 frameNo (BufDesc.Clear (frameAt s1 frameNo))
    (.ok (), storeDelete s2 f p)

/-- One public buffer-manager operation, with arbitrary arguments and (for
the operations that sweep) an arbitrary lap budget that did not run out. -/
inductive Step : BufState → BufState → Prop where
  | read (laps f p : Nat) (s : BufState) (o : OpOut (Option Nat))
      (t : BufState) : readPage laps f p s = some (o, t) → Step s t
  | unpin (f p : Nat) (d : Bool) (s : BufState) :
      Step s (unPinPage f p d s).2
  | flush (f : Nat) (s : BufState) : Step s (flushFile f s).2
  | alloc (laps f : Nat) (s : BufState) (o : OpOut (Nat × Nat))
      (t : BufState) : allocPage laps f s = some (o, t) → Step s t
  | dispose (f p : Nat) (s : BufState) : Step s (disposePage f p s).2

/-- States reachable from a freshly constructed buffer manager of positive
capacity by any sequence of public operations. -/
inductive Reachable : BufState → Prop where
  | init (n : Nat) : 0 < n → Reachable (newBufMgr n)
  | step {s t : BufState} : Reachable s → Step s t → Reachable t

/-! Basic lemmas about list access and the modelled hash index. -/

theorem getD_set_self {α : Type} (l : List α) (i : Nat) (a d : α)
    (h : i < l.length) : (l.set i a).getD i d = a := by
  induction l generalizing i with
  | nil => simp at h
  | cons x t ih =>
    cases i with
    | zero => rfl
    | succ j =>
      simp only [List.set, List.getD_cons_succ]
      exact ih j (by simpa using h)

theorem getD_set_ne {α : Type} (l : List α) (i j : Nat) (a d : α)
    (h : i ≠ j) : (l.set i a).getD j d = l.getD j d := by
  induction l generalizing i j with
  | nil => rfl
  | cons x t ih =>
    cases i with
    | zero =>
      cases j with
      | zero => exact absurd rfl h
      | succ k => rfl
    | succ i2 =>
      cases j with
      | zero => rfl
      | succ k =>
        simp only [List.set, List.getD_cons_succ]
        exact ih i2 k (fun hh => h (by rw [hh]))

theorem getD_set_oob {α : Type} (l : List α) (i : Nat) (a d : α)
    (h : ¬ i < l.length) : l.set i a = l := by
  exact List.set_eq_of_length_le (by omega)

/-- A frame is preserved up to having had its refbit cleared. -/
def presFrame (a b : BufDesc) : Prop :=
  b = a ∨ b = { a with refbit := false }

theorem presFrame_refl (a : BufDesc) : presFrame a a := Or.inl rfl

theorem presFrame_trans {a b c : BufDesc} (h1 : presFrame a b)
    (h2 : presFrame b c) : presFrame a c := by
  rcases h1 with rfl | rfl
  · exact h2
  · rcases h2 with rfl | rfl
    · exact Or.inr rfl
    · exact Or.inr rfl

theorem presFrame_fields {a b : BufDesc} (h : presFrame a b) :
    b.frameNo = a.frameNo ∧ b.file = a.file ∧ b.pageNo = a.pageNo ∧
    b.valid = a.valid ∧ b.dirty = a.dirty ∧ b.pinCnt = a.pinCnt := by
  rcases h with rfl | rfl <;> exact ⟨rfl, rfl, rfl, rfl, rfl, rfl⟩

theorem presFrame_Clear {a b : BufDesc} (h : presFrame a b) :
    BufDesc.Clear b = BufDesc.Clear a := by
  rcases h with rfl | rfl <;> rfl

theorem frameAt_setFrame_self (s : BufState) (i : Nat) (d : BufDesc)
    (h : i < s.bufDescTable.length) : frameAt (setFrame s i d) i = d :=
  getD_set_self _ _ _ _ h

theorem frameAt_setFrame_ne (s : BufState) (i j : Nat) (d : BufDesc)
    (h : i ≠ j) : frameAt (setFrame s i d) j = frameAt s j :=
  getD_set_ne _ _ _ _ _ h

theorem frameAt_advanceClock (s : BufState) (i : Nat) :
    frameAt (advanceClock s) i = frameAt s i := rfl

theorem htLookup_none_iff (ht : List ((Nat × Nat) × Nat)) (f p : Nat) :
    htLookup ht f p = none ↔ ∀ e ∈ ht, e.1 ≠ (f, p) := by
  unfold htLookup
  rw [Option.map_eq_none', List.find?_eq_none]
  constructor
  · intro h e he hk
    have := h e he
    simp [hk] at this
  · intro h e he
    have := h e he
    simp only [Bool.and_eq_true, beq_iff_eq, not_and]
    intro h1 h2
    exact this (by cases e with | mk k v => cases k; simp_all)

theorem htLookup_some (ht : List ((Nat × Nat) × Nat)) (f p v : Nat)
    (h : htLookup ht f p = some v) :
    ∃ e, e ∈ ht ∧ e.1 = (f, p) ∧ e.2 = v := by
  unfold htLookup at h
  rw [Option.map_eq_some'] at h
  obtain ⟨e, he, hv⟩ := h
  refine ⟨e, List.mem_of_find?_eq_some he, ?_, hv⟩
  have := List.find?_some he
  simp only [Bool.and_eq_true, beq_iff_eq] at this
  cases e with | mk k w => cases k; simp_all

theorem mem_htRemove (ht : List ((Nat × Nat) × Nat)) (f p : Nat)
    (e : (Nat × Nat) × Nat) :
    e ∈ htRemove ht f p ↔ e ∈ ht ∧ e.1 ≠ (f, p) := by
  unfold htRemove
  rw [List.mem_filter]
  constructor
  · rintro ⟨h1, h2⟩
    refine ⟨h1, ?_⟩
    intro hk
    simp [hk] at h2
  · rintro ⟨h1, h2⟩
    refine ⟨h1, ?_⟩
    simp only [Bool.not_eq_eq_eq_not, Bool.not_true, Bool.and_eq_false_iff]
    cases e with | mk k w =>
      cases k with | mk a b =>
        by_cases ha : a = f
        · right
          subst ha
          simp only [beq_eq_false_iff_ne, ne_eq]
          intro hb
          exact h2 (by simp [hb])
        · left
          simpa using ha

theorem htLookup_htRemove_self (ht : List ((Nat × Nat) × Nat)) (f p : Nat) :
    htLookup (htRemove ht f p) f p = none := by
  rw [htLookup_none_iff]
  intro e he
  exact ((mem_htRemove ht f p e).mp he).2

theorem htLookup_none_htRemove (ht : List ((Nat × Nat) × Nat))
    (f p a b : Nat) (h : htLookup ht a b = none) :
    htLookup (htRemove ht f p) a b = none := by
  rw [htLookup_none_iff] at h ⊢
  intro e he
  exact h e ((mem_htRemove ht f p e).mp he).1

theorem filterB_comm {α : Type} (p q : α → Bool) (l : List α) :
    (l.filter p).filter q = (l.filter q).filter p := by
  induction l with
  | nil => rfl
  | cons x t ih =>
    by_cases hp : p x <;> by_cases hq : q x <;>
      simp [List.filter, hp, hq, ih]

theorem htRemove_filter (ht : List ((Nat × Nat) × Nat)) (f p i : Nat) :
    (htRemove ht f p).filter (fun e => e.2 == i) =
      htRemove (ht.filter (fun e => e.2 == i)) f p :=
  filterB_comm _ _ ht

theorem getD_oob {α : Type} (l : List α) (i : Nat) (d : α)
    (h : l.length ≤ i) : l.getD i d = d := by
  induction l generalizing i with
  | nil => rfl
  | cons x t ih =>
    cases i with
    | zero => simp at h
    | succ j =>
      simp only [List.getD_cons_succ]
      exact ih j (by simpa using h)

theorem frameAt_oob (s : BufState) (i : Nat)
    (h : s.bufDescTable.length ≤ i) : frameAt s i = default :=
  getD_oob _ _ _ h

theorem frameAt_valid_lt (s : BufState) (i : Nat)
    (h : (frameAt s i).valid = true) : i < s.bufDescTable.length := by
  by_contra hc
  rw [frameAt_oob s i (by omega)] at h
  exact Bool.false_ne_true h

/-- What one whole failed lap of the sweep preserves: everything except
refbits and the clock hand, with the pinned tally only growing. -/
structure ContPres (s t : BufState) (p p2 : Nat) : Prop where
  hn : t.numBufs = s.numBufs
  hpool : t.bufPool = s.bufPool
  hht : t.hashTable = s.hashTable
  hev : t.events = s.events
  hdisk : t.disk = s.disk
  hnext : t.nextPageId = s.nextPageId
  hacc : t.accesses = s.accesses
  hrd : t.diskreads = s.diskreads
  hwr : t.diskwrites = s.diskwrites
  hlen : t.bufDescTable.length = s.bufDescTable.length
  hple : p ≤ p2
  hhand : s.clockHand < s.numBufs → t.clockHand < t.numBufs
  hframes : ∀ i, presFrame (frameAt s i) (frameAt t i)

/-- What a sweep that selected victim `v` guarantees, stated against the
state at the start of the sweep.  A pinned frame is never the victim, a
valid victim is flushed only when dirty (exactly one write), cleared, and
its index entry removed; every other frame at most loses its refbit. -/
structure FoundPres (s : BufState) (v : Nat) (t : BufState) : Prop where
  hn : t.numBufs = s.numBufs
  hpool : t.bufPool = s.bufPool
  hlen : t.bufDescTable.length = s.bufDescTable.length
  hnext : t.nextPageId = s.nextPageId
  hacc : t.accesses = s.accesses
  hrd : t.diskreads = s.diskreads
  hhand : t.clockHand = v
  hv : s.clockHand < s.numBufs → v < s.numBufs
  hframes : ∀ i, i ≠ v → presFrame (frameAt s i) (frameAt t i)
  hvict :
    ((frameAt s v).valid = false ∧ t.hashTable = s.hashTable ∧
      t.events = s.events ∧ t.disk = s.disk ∧
      t.diskwrites = s.diskwrites ∧
      presFrame (frameAt s v) (frameAt t v))
    ∨
    ((frameAt s v).valid = true ∧ (frameAt s v).pinCnt = 0 ∧
      v < s.bufDescTable.length ∧
      t.hashTable = htRemove s.hashTable ((frameAt s v).file.getD 0)
        (frameAt s v).pageNo ∧
      frameAt t v = BufDesc.Clear (frameAt s v) ∧
      ((frameAt s v).dirty = true →
        t.events = s.events ++ [Ev.write ((frameAt s v).file.getD 0)
          (poolAt s v).page_number (poolAt s v).data] ∧
        t.diskwrites = s.diskwrites + 1) ∧
      ((frameAt s v).dirty = false →
        t.events = s.events ∧ t.disk = s.disk ∧
        t.diskwrites = s.diskwrites))

theorem presFrame_secondChance (s : BufState) (i : Nat) :
    presFrame (frameAt s i)
      (frameAt (secondChance s s.clockHand (frameAt s s.clockHand)) i) := by
  unfold secondChance
  rw [frameAt_advanceClock]
  by_cases hi : s.clockHand = i
  · subst hi
    by_cases hl : s.clockHand < s.bufDescTable.length
    · rw [frameAt_setFrame_self s _ _ hl]
      exact Or.inr rfl
    · unfold setFrame frameAt
      rw [List.set_eq_of_length_le (by omega)]
      exact presFrame_refl _
  · rw [frameAt_setFrame_ne s _ _ _ hi]
    exact presFrame_refl _

theorem lap_cont_pres {s : BufState} {p fuel p2 : Nat} {t : BufState}
    (h : allocBufLap s p fuel = .cont p2 t) : ContPres s t p p2 := by
  induction fuel generalizing s p with
  | zero =>
    simp only [allocBufLap] at h
    injection h with h1 h2
    subst h1; subst h2
    exact ⟨rfl, rfl, rfl, rfl, rfl, rfl, rfl, rfl, rfl, rfl, le_refl p,
      fun hh => hh, fun i => presFrame_refl _⟩
  | succ fuel ih =>
    simp only [allocBufLap] at h
    by_cases hv : (frameAt s s.clockHand).valid = true
    · rw [if_pos hv] at h
      by_cases hr : (frameAt s s.clockHand).refbit = true
      · rw [if_pos hr] at h
        have hlt : s.clockHand < s.bufDescTable.length :=
          frameAt_valid_lt s _ hv
        have ihh := ih h
        have hlen2 : (secondChance s s.clockHand
            (frameAt s s.clockHand)).bufDescTable.length =
            s.bufDescTable.length := by
          unfold secondChance advanceClock setFrame
          simp
        refine ⟨ihh.hn, ihh.hpool, ihh.hht, ihh.hev, ihh.hdisk, ihh.hnext,
          ihh.hacc, ihh.hrd, ihh.hwr, ihh.hlen.trans hlen2, ihh.hple,
          ?_, fun i => presFrame_trans (presFrame_secondChance s i)
            (ihh.hframes i)⟩
        intro hh
        have hn0 : 0 < s.numBufs := by omega
        exact ihh.hhand (by
          show (s.clockHand + 1) % s.numBufs < s.numBufs
          exact Nat.mod_lt _ hn0)
      · rw [if_neg hr] at h
        by_cases hp : (frameAt s s.clockHand).pinCnt ≠ 0
        · rw [if_pos hp] at h
          have ihh := ih h
          refine ⟨ihh.hn, ihh.hpool, ihh.hht, ihh.hev, ihh.hdisk, ihh.hnext,
            ihh.hacc, ihh.hrd, ihh.hwr, ihh.hlen,
            Nat.le_of_succ_le ihh.hple,
            ?_, fun i => ihh.hframes i⟩
          intro hh
          have hn0 : 0 < s.numBufs := by omega
          exact ihh.hhand (by
            show (s.clockHand + 1) % s.numBufs < s.numBufs
            exact Nat.mod_lt _ hn0)
        · rw [if_neg hp] at h
          exact absurd h (by simp)
    · rw [if_neg hv] at h
      exact absurd h (by simp)

theorem frameAt_eq_of_table {t : BufState} {l : List BufDesc}
    (h : t.bufDescTable = l) (i : Nat) : frameAt t i = l.getD i default := by
  unfold frameAt
  rw [h]

theorem victimEvict_pres (s : BufState) (hd : Nat) (d : BufDesc) :
    (victimEvict s hd d).numBufs = s.numBufs ∧
    (victimEvict s hd d).bufPool = s.bufPool ∧
    (victimEvict s hd d).bufDescTable =
      s.bufDescTable.set hd (BufDesc.Clear d) ∧
    (victimEvict s hd d).clockHand = s.clockHand ∧
    (victimEvict s hd d).nextPageId = s.nextPageId ∧
    (victimEvict s hd d).accesses = s.accesses ∧
    (victimEvict s hd d).diskreads = s.diskreads ∧
    (victimEvict s hd d).hashTable =
      htRemove s.hashTable (d.file.getD 0) d.pageNo ∧
    (d.dirty = true →
      (victimEvict s hd d).events = s.events ++
        [Ev.write (d.file.getD 0) (poolAt s hd).page_number
          (poolAt s hd).data] ∧
      (victimEvict s hd d).diskwrites = s.diskwrites + 1) ∧
    (d.dirty = false →
      (victimEvict s hd d).events = s.events ∧
      (victimEvict s hd d).disk = s.disk ∧
      (victimEvict s hd d).diskwrites = s.diskwrites) := by
  by_cases hdd : d.dirty = true <;>
    simp [victimEvict, storeWrite, setFrame, hdd]

theorem lap_found_pres {s : BufState} {p fuel : Nat} {v : Nat}
    {t : BufState} (h : allocBufLap s p fuel = .found v t) :
    FoundPres s v t := by
  induction fuel generalizing s p with
  | zero =>
    simp only [allocBufLap] at h
    exact absurd h (by simp)
  | succ fuel ih =>
    simp only [allocBufLap] at h
    by_cases hv : (frameAt s s.clockHand).valid = true
    · rw [if_pos hv] at h
      by_cases hr : (frameAt s s.clockHand).refbit = true
      · rw [if_pos hr] at h
        have hlt : s.clockHand < s.bufDescTable.length :=
          frameAt_valid_lt s _ hv
        have ihh := ih h
        have hu : ∀ i, presFrame (frameAt s i)
            (frameAt (secondChance s s.clockHand (frameAt s s.clockHand)) i) :=
          presFrame_secondChance s
        have hlen2 : (secondChance s s.clockHand
            (frameAt s s.clockHand)).bufDescTable.length =
            s.bufDescTable.length := by
          unfold secondChance advanceClock setFrame
          simp
        have hfields := presFrame_fields (hu v)
        have hpool2 : ∀ i, poolAt (secondChance s s.clockHand
            (frameAt s s.clockHand)) i = poolAt s i := fun i => rfl
        refine ⟨ihh.hn, ihh.hpool, ihh.hlen.trans hlen2, ihh.hnext,
          ihh.hacc, ihh.hrd, ihh.hhand, ?_,
          fun i hi => presFrame_trans (hu i) (ihh.hframes i hi), ?_⟩
        · intro hh
          have hn0 : 0 < s.numBufs := by omega
          exact ihh.hv (by
            show (s.clockHand + 1) % s.numBufs < s.numBufs
            exact Nat.mod_lt _ hn0)
        · rcases ihh.hvict with ⟨c1, c2, c3, c4, c5, c6⟩ |
            ⟨c1, c2, c3, c4, c5, c6, c7⟩
          · left
            exact ⟨by rw [← hfields.2.2.2.1]; exact c1, c2, c3, c4, c5,
              presFrame_trans (hu v) c6⟩
          · right
            refine ⟨by rw [← hfields.2.2.2.1]; exact c1,
              by rw [← hfields.2.2.2.2.2]; exact c2,
              hlen2 ▸ c3, ?_, ?_, ?_, ?_⟩
            · rw [c4, hfields.2.1, hfields.2.2.1]
              exact rfl
            · rw [c5, presFrame_Clear (hu v)]
            · intro hd
              have := c6 (by rw [hfields.2.2.2.2.1]; exact hd)
              rw [this.1, this.2, hfields.2.1, hpool2 v]
              exact ⟨rfl, rfl⟩
            · intro hd
              have := c7 (by rw [hfields.2.2.2.2.1]; exact hd)
              exact ⟨this.1, this.2.1, this.2.2⟩
      · rw [if_neg hr] at h
        by_cases hp : (frameAt s s.clockHand).pinCnt ≠ 0
        · rw [if_pos hp] at h
          have ihh := ih h
          refine ⟨ihh.hn, ihh.hpool, ihh.hlen, ihh.hnext, ihh.hacc,
            ihh.hrd, ihh.hhand, ?_, fun i hi => ihh.hframes i hi,
            ihh.hvict⟩
          intro hh
          have hn0 : 0 < s.numBufs := by omega
          exact ihh.hv (by
            show (s.clockHand + 1) % s.numBufs < s.numBufs
            exact Nat.mod_lt _ hn0)
        · rw [if_neg hp] at h
          injection h with h1 h2
          subst h1; subst h2
          have hpin : (frameAt s s.clockHand).pinCnt = 0 := by omega
          have hlt : s.clockHand < s.bufDescTable.length :=
            frameAt_valid_lt s _ hv
          obtain ⟨e1, e2, e3, e4, e5, e6, e7, e8, e9, e10⟩ :=
            victimEvict_pres s s.clockHand (frameAt s s.clockHand)
          refine ⟨e1, e2, by rw [e3]; simp, e5, e6, e7, e4,
            fun hh => hh, ?_, ?_⟩
          · intro i hi
            rw [frameAt_eq_of_table e3 i,
              getD_set_ne _ _ _ _ _ (fun hh => hi hh.symm)]
            exact presFrame_refl _
          · right
            refine ⟨hv, hpin, hlt, e8, ?_, e9, e10⟩
            rw [frameAt_eq_of_table e3 s.clockHand]
            exact getD_set_self _ _ _ _ hlt
    · rw [if_neg hv] at h
      injection h with h1 h2
      subst h1; subst h2
      refine ⟨rfl, rfl, rfl, rfl, rfl, rfl, rfl, fun hh => hh,
        fun i _ => presFrame_refl _, ?_⟩
      left
      refine ⟨?_, rfl, rfl, rfl, rfl, presFrame_refl _⟩
      simpa using hv

/-! Unfolding lemmas for the four branches of the sweep body. -/

theorem allocBufLap_invalid {s : BufState} {p fuel : Nat}
    (hv : (frameAt s s.clockHand).valid = false) :
    allocBufLap s p (fuel + 1) = .found s.clockHand s := by
  simp [allocBufLap, hv]

theorem allocBufLap_refbit {s : BufState} {p fuel : Nat}
    (hv : (frameAt s s.clockHand).valid = true)
    (hr : (frameAt s s.clockHand).refbit = true) :
    allocBufLap s p (fuel + 1) =
      allocBufLap (secondChance s s.clockHand (frameAt s s.clockHand))
        p fuel := by
  simp [allocBufLap, hv, hr]

theorem allocBufLap_pinned {s : BufState} {p fuel : Nat}
    (hv : (frameAt s s.clockHand).valid = true)
    (hr : (frameAt s s.clockHand).refbit = false)
    (hp : (frameAt s s.clockHand).pinCnt ≠ 0) :
    allocBufLap s p (fuel + 1) = allocBufLap (advanceClock s) (p + 1) fuel := by
  simp [allocBufLap, hv, hr, hp]

theorem allocBufLap_victim {s : BufState} {p fuel : Nat}
    (hv : (frameAt s s.clockHand).valid = true)
    (hr : (frameAt s s.clockHand).refbit = false)
    (hp : (frameAt s s.clockHand).pinCnt = 0) :
    allocBufLap s p (fuel + 1) =
      .found s.clockHand (victimEvict s s.clockHand
        (frameAt s s.clockHand)) := by
  simp [allocBufLap, hv, hr, hp]

/-! Termination of the sweep within two laps. -/

/-- A frame that can no longer absorb a second chance: valid with its
refbit already cleared. -/
def goodFrame (d : BufDesc) : Prop := d.valid = true ∧ d.refbit = false

theorem presFrame_good {a b : BufDesc} (h : presFrame a b)
    (hg : goodFrame a) : goodFrame b := by
  rcases h with rfl | rfl
  · exact hg
  · exact ⟨hg.1, rfl⟩

/-- After a failed lap every frame of the pool is good. -/
def allGood (s : BufState) : Prop :=
  ∀ i, i < s.numBufs → goodFrame (frameAt s i)

theorem lap_cont_good {s : BufState} {p fuel p2 : Nat} {t : BufState}
    (h : allocBufLap s p fuel = .cont p2 t)
    (hh : s.clockHand < s.numBufs) :
    ∀ k, k < fuel →
      goodFrame (frameAt t ((s.clockHand + k) % s.numBufs)) := by
  induction fuel generalizing s p with
  | zero => exact fun k hk => absurd hk (by omega)
  | succ fuel ih =>
    have hn0 : 0 < s.numBufs := by omega
    by_cases hv : (frameAt s s.clockHand).valid = true
    · by_cases hr : (frameAt s s.clockHand).refbit = true
      · rw [allocBufLap_refbit hv hr] at h
        have hlt : s.clockHand < s.bufDescTable.length :=
          frameAt_valid_lt s _ hv
        have hhu : (secondChance s s.clockHand
            (frameAt s s.clockHand)).clockHand <
            (secondChance s s.clockHand (frameAt s s.clockHand)).numBufs := by
          show (s.clockHand + 1) % s.numBufs < s.numBufs
          exact Nat.mod_lt _ hn0
        have ihh := ih h hhu
        intro k hk
        cases k with
        | zero =>
          rw [Nat.add_zero, Nat.mod_eq_of_lt hh]
          have hgu : goodFrame (frameAt (secondChance s s.clockHand
              (frameAt s s.clockHand)) s.clockHand) := by
            unfold secondChance
            rw [frameAt_advanceClock, frameAt_setFrame_self s _ _ hlt]
            exact ⟨hv, rfl⟩
          exact presFrame_good ((lap_cont_pres h).hframes s.clockHand) hgu
        | succ k2 =>
          have hpos : ((secondChance s s.clockHand
              (frameAt s s.clockHand)).clockHand + k2) %
              (secondChance s s.clockHand
                (frameAt s s.clockHand)).numBufs =
              (s.clockHand + (k2 + 1)) % s.numBufs := by
            show (((s.clockHand + 1) % s.numBufs) + k2) % s.numBufs = _
            rw [Nat.mod_add_mod]
            congr 1
            omega
          have := ihh k2 (by omega)
          rw [hpos] at this
          exact this
      · have hrf : (frameAt s s.clockHand).refbit = false := by
          simpa using hr
        by_cases hp : (frameAt s s.clockHand).pinCnt ≠ 0
        · rw [allocBufLap_pinned hv hrf hp] at h
          have hhu : (advanceClock s).clockHand <
              (advanceClock s).numBufs := by
            show (s.clockHand + 1) % s.numBufs < s.numBufs
            exact Nat.mod_lt _ hn0
          have ihh := ih h hhu
          intro k hk
          cases k with
          | zero =>
            rw [Nat.add_zero, Nat.mod_eq_of_lt hh]
            exact presFrame_good ((lap_cont_pres h).hframes s.clockHand)
              ⟨hv, hrf⟩
          | succ k2 =>
            have hpos : ((advanceClock s).clockHand + k2) %
                (advanceClock s).numBufs =
                (s.clockHand + (k2 + 1)) % s.numBufs := by
              show (((s.clockHand + 1) % s.numBufs) + k2) % s.numBufs = _
              rw [Nat.mod_add_mod]
              congr 1
              omega
            have := ihh k2 (by omega)
            rw [hpos] at this
            exact this
        · have hp0 : (frameAt s s.clockHand).pinCnt = 0 := by omega
          rw [allocBufLap_victim hv hrf hp0] at h
          exact absurd h (by simp)
    · rw [allocBufLap_invalid (by simpa using hv)] at h
      exact absurd h (by simp)

theorem residue_cover (n h i : Nat) (hn : 0 < n) (hi : i < n) :
    ∃ k, k < n ∧ (h + k) % n = i := by
  have hr : h % n < n := Nat.mod_lt _ hn
  by_cases hle : h % n ≤ i
  · refine ⟨i - h % n, by omega, ?_⟩
    rw [← Nat.mod_add_mod]
    have heq : h % n + (i - h % n) = i := by omega
    rw [heq, Nat.mod_eq_of_lt hi]
  · refine ⟨i + n - h % n, by omega, ?_⟩
    rw [← Nat.mod_add_mod]
    have heq : h % n + (i + n - h % n) = i + n := by omega
    rw [heq, Nat.add_mod_right, Nat.mod_eq_of_lt hi]

theorem allGood_after_lap {s : BufState} {p p2 : Nat} {t : BufState}
    (h : allocBufLap s p s.numBufs = .cont p2 t)
    (hh : s.clockHand < s.numBufs) : allGood t := by
  intro i hi
  have hn := (lap_cont_pres h).hn
  obtain ⟨k, hk, hpos⟩ := residue_cover s.numBufs s.clockHand i
    (by omega) (by omega)
  have := lap_cont_good h hh k hk
  rw [hpos] at this
  exact this

theorem lap_allGood {s : BufState} {p : Nat} (hg : allGood s)
    (hh : s.clockHand < s.numBufs) :
    ∀ fuel, (∃ v t, allocBufLap s p fuel = .found v t) ∨
      (∃ t, allocBufLap s p fuel = .cont (p + fuel) t) := by
  intro fuel
  induction fuel generalizing s p with
  | zero => exact Or.inr ⟨s, rfl⟩
  | succ fuel ih =>
    have hgood := hg s.clockHand hh
    by_cases hp : (frameAt s s.clockHand).pinCnt ≠ 0
    · rw [allocBufLap_pinned hgood.1 hgood.2 hp]
      have hgu : allGood (advanceClock s) := fun i hi => hg i hi
      have hhu : (advanceClock s).clockHand < (advanceClock s).numBufs := by
        show (s.clockHand + 1) % s.numBufs < s.numBufs
        exact Nat.mod_lt _ (by omega)
      rcases ih hgu hhu with ⟨v, t, hf⟩ | ⟨t, hc⟩
      · exact Or.inl ⟨v, t, hf⟩
      · refine Or.inr ⟨t, ?_⟩
        rw [hc]
        congr 1
        omega
    · rw [allocBufLap_victim hgood.1 hgood.2 (by omega)]
      exact Or.inl ⟨_, _, rfl⟩

/-! Composition of lap facts through the retry loop. -/

/-- What a sweep ending in BufferExceededException preserves: everything
except refbits and the clock hand. -/
structure ErrPres (s t : BufState) : Prop where
  hn : t.numBufs = s.numBufs
  hpool : t.bufPool = s.bufPool
  hht : t.hashTable = s.hashTable
  hev : t.events = s.events
  hdisk : t.disk = s.disk
  hnext : t.nextPageId = s.nextPageId
  hacc : t.accesses = s.accesses
  hrd : t.diskreads = s.diskreads
  hwr : t.diskwrites = s.diskwrites
  hlen : t.bufDescTable.length = s.bufDescTable.length
  hhand : s.clockHand < s.numBufs → t.clockHand < t.numBufs
  hframes : ∀ i, presFrame (frameAt s i) (frameAt t i)

theorem contPres_comp_found {s u : BufState} {p p2 v : Nat} {t : BufState}
    (h1 : ContPres s u p p2) (h2 : FoundPres u v t) : FoundPres s v t := by
  have hpv := h1.hframes v
  have hf := presFrame_fields hpv
  have hpool : poolAt u v = poolAt s v := by
    unfold poolAt
    rw [h1.hpool]
  refine ⟨h2.hn.trans h1.hn, h2.hpool.trans h1.hpool,
    h2.hlen.trans h1.hlen, h2.hnext.trans h1.hnext,
    h2.hacc.trans h1.hacc, h2.hrd.trans h1.hrd, h2.hhand, ?_,
    fun i hi => presFrame_trans (h1.hframes i) (h2.hframes i hi), ?_⟩
  · intro hh
    have hvu := h2.hv (h1.hhand hh)
    exact h1.hn ▸ hvu
  · rcases h2.hvict with ⟨c1, c2, c3, c4, c5, c6⟩ |
      ⟨c1, c2, c3, c4, c5, c6, c7⟩
    · left
      exact ⟨by rw [← hf.2.2.2.1]; exact c1, c2.trans h1.hht,
        c3.trans h1.hev, c4.trans h1.hdisk, c5.trans h1.hwr,
        presFrame_trans hpv c6⟩
    · right
      refine ⟨by rw [← hf.2.2.2.1]; exact c1,
        by rw [← hf.2.2.2.2.2]; exact c2,
        by rw [← h1.hlen]; exact c3, ?_, ?_, ?_, ?_⟩
      · rw [c4, hf.2.1, hf.2.2.1, h1.hht]
      · rw [c5, presFrame_Clear hpv]
      · intro hd
        have := c6 (by rw [hf.2.2.2.2.1]; exact hd)
        rw [this.1, this.2, hf.2.1, hpool, h1.hev, h1.hwr]
        exact ⟨rfl, rfl⟩
      · intro hd
        have := c7 (by rw [hf.2.2.2.2.1]; exact hd)
        exact ⟨this.1.trans h1.hev, this.2.1.trans h1.hdisk,
          this.2.2.trans h1.hwr⟩

theorem contPres_errPres {s t : BufState} {p p2 : Nat}
    (h : ContPres s t p p2) : ErrPres s t :=
  ⟨h.hn, h.hpool, h.hht, h.hev, h.hdisk, h.hnext, h.hacc, h.hrd, h.hwr,
    h.hlen, h.hhand, h.hframes⟩

theorem errPres_comp {s u t : BufState} (h1 : ErrPres s u)
    (h2 : ErrPres u t) : ErrPres s t :=
  ⟨h2.hn.trans h1.hn, h2.hpool.trans h1.hpool, h2.hht.trans h1.hht,
    h2.hev.trans h1.hev, h2.hdisk.trans h1.hdisk, h2.hnext.trans h1.hnext,
    h2.hacc.trans h1.hacc, h2.hrd.trans h1.hrd, h2.hwr.trans h1.hwr,
    h2.hlen.trans h1.hlen, fun hh => h2.hhand (h1.hhand hh),
    fun i => presFrame_trans (h1.hframes i) (h2.hframes i)⟩

theorem allocBufLoop_found (laps : Nat) {s : BufState} {v : Nat}
    {t : BufState} (hl : allocBufLap s 0 s.numBufs = .found v t) :
    allocBufLoop s (laps + 1) = some (.ok v, t) := by
  simp [allocBufLoop, hl]

theorem allocBufLoop_cont_full (laps : Nat) {s : BufState} {p : Nat}
    {t : BufState} (hl : allocBufLap s 0 s.numBufs = .cont p t)
    (hp : p = t.numBufs) :
    allocBufLoop s (laps + 1) = some (.err .bufferExceeded, t) := by
  simp [allocBufLoop, hl, hp]

theorem allocBufLoop_cont_retry (laps : Nat) {s : BufState} {p : Nat}
    {t : BufState} (hl : allocBufLap s 0 s.numBufs = .cont p t)
    (hp : p ≠ t.numBufs) :
    allocBufLoop s (laps + 1) = allocBufLoop t laps := by
  simp [allocBufLoop, hl, hp]

theorem loop_ok_pres {s : BufState} {laps v : Nat} {t : BufState}
    (h : allocBufLoop s laps = some (.ok v, t)) : FoundPres s v t := by
  induction laps generalizing s with
  | zero => exact absurd h (by simp [allocBufLoop])
  | succ laps ih =>
    cases hl : allocBufLap s 0 s.numBufs with
    | found v2 t2 =>
      rw [allocBufLoop_found laps hl] at h
      simp only [Option.some.injEq, Prod.mk.injEq, OpOut.ok.injEq] at h
      obtain ⟨rfl, rfl⟩ := h
      exact lap_found_pres hl
    | cont p u =>
      by_cases hp : p = u.numBufs
      · rw [allocBufLoop_cont_full laps hl hp] at h
        exact absurd h (by simp)
      · rw [allocBufLoop_cont_retry laps hl hp] at h
        exact contPres_comp_found (lap_cont_pres hl) (ih h)

theorem loop_err_pres {s : BufState} {laps : Nat} {e : BufError}
    {t : BufState} (h : allocBufLoop s laps = some (.err e, t)) :
    e = .bufferExceeded ∧ ErrPres s t := by
  induction laps generalizing s with
  | zero => exact absurd h (by simp [allocBufLoop])
  | succ laps ih =>
    cases hl : allocBufLap s 0 s.numBufs with
    | found v2 t2 =>
      rw [allocBufLoop_found laps hl] at h
      exact absurd h (by simp)
    | cont p u =>
      by_cases hp : p = u.numBufs
      · rw [allocBufLoop_cont_full laps hl hp] at h
        simp only [Option.some.injEq, Prod.mk.injEq, OpOut.err.injEq] at h
        obtain ⟨rfl, rfl⟩ := h
        exact ⟨rfl, contPres_errPres (lap_cont_pres hl)⟩
      · rw [allocBufLoop_cont_retry laps hl hp] at h
        obtain ⟨he, hpres⟩ := ih h
        exact ⟨he, errPres_comp (contPres_errPres (lap_cont_pres hl)) hpres⟩

theorem loop_stable {s : BufState}
    (hh : s.numBufs = 0 ∨ s.clockHand < s.numBufs) (laps : Nat)
    (h2 : 2 ≤ laps) :
    allocBufLoop s laps = allocBufLoop s 2 ∧
      ∃ r, allocBufLoop s 2 = some r := by
  rcases hh with hz | hh
  · have hlap : allocBufLap s 0 s.numBufs = .cont 0 s := by
      rw [hz]
      rfl
    have hif : (0 = s.numBufs) := hz.symm
    cases laps with
    | zero => omega
    | succ k =>
      refine ⟨?_, _, allocBufLoop_cont_full 1 hlap hif⟩
      rw [allocBufLoop_cont_full k hlap hif,
        allocBufLoop_cont_full 1 hlap hif]
  · cases laps with
    | zero => omega
    | succ k =>
      cases k with
      | zero => omega
      | succ k2 =>
        cases hl : allocBufLap s 0 s.numBufs with
        | found v t =>
          refine ⟨?_, _, allocBufLoop_found 1 hl⟩
          rw [allocBufLoop_found (k2 + 1) hl,
            allocBufLoop_found 1 hl]
        | cont p u =>
          by_cases hp : p = u.numBufs
          · refine ⟨?_, _, allocBufLoop_cont_full 1 hl hp⟩
            rw [allocBufLoop_cont_full (k2 + 1) hl hp,
              allocBufLoop_cont_full 1 hl hp]
          · have hcp := lap_cont_pres hl
            have hgu : allGood u := allGood_after_lap hl hh
            have hhu : u.clockHand < u.numBufs := hcp.hhand hh
            rw [allocBufLoop_cont_retry (k2 + 1) hl hp,
              allocBufLoop_cont_retry 1 hl hp]
            rcases lap_allGood hgu hhu u.numBufs with ⟨v, t, hf⟩ | ⟨t, hc⟩
            · refine ⟨?_, _, allocBufLoop_found 0 hf⟩
              rw [allocBufLoop_found k2 hf,
                allocBufLoop_found 0 hf]
            · rw [Nat.zero_add] at hc
              have hfull : u.numBufs = t.numBufs :=
                ((lap_cont_pres hc).hn).symm
              refine ⟨?_, _, allocBufLoop_cont_full 0 hc hfull⟩
              rw [allocBufLoop_cont_full k2 hc hfull,
                allocBufLoop_cont_full 0 hc hfull]

theorem advanceClock_hand (s : BufState) :
    (advanceClock s).numBufs = 0 ∨
      (advanceClock s).clockHand < (advanceClock s).numBufs := by
  by_cases hn : s.numBufs = 0
  · exact Or.inl hn
  · exact Or.inr (Nat.mod_lt _ (Nat.pos_of_ne_zero hn))

theorem allocBuf_stable (s : BufState) (laps : Nat) (h2 : 2 ≤ laps) :
    allocBuf laps s = allocBuf 2 s ∧ ∃ r, allocBuf 2 s = some r := by
  unfold allocBuf
  exact loop_stable (advanceClock_hand s) laps h2

/-! The reachable-state invariant tying the frame table to the index. -/

/-- The (file, pageNo) key under which a frame's owner is registered in
the index; the file field of a valid frame is always `some`. -/
def ownerKey (d : BufDesc) : Nat × Nat := (d.file.getD 0, d.pageNo)

/-- The index entries a frame is expected to own: exactly one entry, under
its owner key, when valid; none when invalid. -/
def ownerEntry (d : BufDesc) (i : Nat) : List ((Nat × Nat) × Nat) :=
  if d.valid = true then [(ownerKey d, i)] else []

/-- The state invariant: well-formed sizes, a clock hand inside the pool,
cleared frames with no owner and no pins, index entries pointing into the
pool, each frame valid exactly when the index has exactly one entry for it
(under its owner key), distinct valid frames with distinct owners, and the
pool page of a valid frame carrying its frame's page number. -/
def Inv (s : BufState) : Prop :=
  0 < s.numBufs ∧
  s.bufDescTable.length = s.numBufs ∧
  s.bufPool.length = s.numBufs ∧
  s.clockHand < s.numBufs ∧
  (∀ i, i < s.numBufs → (frameAt s i).valid = false →
    (frameAt s i).file = none ∧ (frameAt s i).pinCnt = 0) ∧
  (∀ i, i < s.numBufs → (frameAt s i).valid = true →
    (frameAt s i).file.isSome = true) ∧
  (∀ e ∈ s.hashTable, e.2 < s.numBufs) ∧
  (∀ i, i < s.numBufs →
    s.hashTable.filter (fun e => e.2 == i) = ownerEntry (frameAt s i) i) ∧
  (∀ i, i < s.numBufs → ∀ j, j < s.numBufs →
    (frameAt s i).valid = true → (frameAt s j).valid = true →
    ownerKey (frameAt s i) = ownerKey (frameAt s j) → i = j) ∧
  (∀ i, i < s.numBufs → (frameAt s i).valid = true →
    (poolAt s i).page_number = (frameAt s i).pageNo)

theorem frameAt_newBufMgr {n i : Nat} (h : i < n) :
    frameAt (newBufMgr n) i =
      { frameNo := i, file := none, pageNo := 0, valid := false,
        refbit := false, dirty := false, pinCnt := 0 } := by
  unfold frameAt newBufMgr
  rw [List.getD_eq_getElem?_getD]
  simp [List.getElem?_map, List.getElem?_range h]

theorem Inv_newBufMgr {n : Nat} (h : 0 < n) : Inv (newBufMgr n) := by
  refine ⟨h, by simp [newBufMgr], by simp [newBufMgr], by
    show n - 1 < n
    omega, ?_, ?_, ?_, ?_, ?_, ?_⟩
  · intro i hi _
    rw [frameAt_newBufMgr (show i < n from hi)]
    exact ⟨rfl, rfl⟩
  · intro i hi hv
    rw [frameAt_newBufMgr (show i < n from hi)] at hv
    exact absurd hv (by simp)
  · intro e he
    exact absurd he (by simp [newBufMgr])
  · intro i hi
    rw [frameAt_newBufMgr (show i < n from hi)]
    simp [newBufMgr, ownerEntry]
  · intro i hi j hj hv
    rw [frameAt_newBufMgr (show i < n from hi)] at hv
    exact absurd hv (by simp)
  · intro i hi hv
    rw [frameAt_newBufMgr (show i < n from hi)] at hv
    exact absurd hv (by simp)

/-- The invariant only looks at the five core fields. -/
theorem Inv_congr {s t : BufState} (hn : t.numBufs = s.numBufs)
    (htab : t.bufDescTable = s.bufDescTable)
    (hpool : t.bufPool = s.bufPool) (hht : t.hashTable = s.hashTable)
    (hh : t.clockHand = s.clockHand) (hInv : Inv s) : Inv t := by
  unfold Inv frameAt poolAt
  rw [hn, htab, hpool, hht, hh]
  exact hInv

theorem htRemove_single_self (k : Nat × Nat) (v : Nat) :
    htRemove [(k, v)] k.1 k.2 = [] := by
  unfold htRemove
  simp

theorem htRemove_single_ne (k : Nat × Nat) (v : Nat) (f p : Nat)
    (h : k ≠ (f, p)) : htRemove [(k, v)] f p = [(k, v)] := by
  unfold htRemove
  cases k with | mk a b =>
    by_cases ha : a = f
    · subst ha
      have hb : b ≠ p := fun hb => h (by rw [hb])
      simp [hb]
    · simp [ha]

theorem htRemove_nil (f p : Nat) : htRemove [] f p = [] := rfl

theorem filter_cons_valueIs (f p v i : Nat)
    (ht : List ((Nat × Nat) × Nat)) :
    (((f, p), v) :: ht).filter (fun e => e.2 == i) =
      if v = i then ((f, p), v) :: ht.filter (fun e => e.2 == i)
      else ht.filter (fun e => e.2 == i) := by
  by_cases hv : v = i <;>
    simp [List.filter, hv, beq_iff_eq, Nat.beq_eq]
  · rw [show (v == i) = false by simpa using hv]

/-- An index lookup hit, under the invariant, identifies a valid frame in
range whose owner key is the looked-up key. -/
theorem Inv_lookup {s : BufState} (hInv : Inv s) {f p v : Nat}
    (h : htLookup s.hashTable f p = some v) :
    v < s.numBufs ∧ (frameAt s v).valid = true ∧
      ownerKey (frameAt s v) = (f, p) := by
  obtain ⟨e, he, hk, hv⟩ := htLookup_some _ _ _ _ h
  obtain ⟨hn0, hlen, hpoolen, hhand, hclean, howned, hrange, hchar, huniq,
    hpn⟩ := hInv
  have hvlt : v < s.numBufs := hv ▸ hrange e he
  have hef : e ∈ s.hashTable.filter (fun x => x.2 == v) := by
    rw [List.mem_filter]
    exact ⟨he, by simp [hv]⟩
  rw [hchar v hvlt] at hef
  unfold ownerEntry at hef
  by_cases hval : (frameAt s v).valid = true
  · rw [if_pos hval] at hef
    simp only [List.mem_singleton] at hef
    refine ⟨hvlt, hval, ?_⟩
    rw [← hk, hef]
  · rw [if_neg hval] at hef
    exact absurd hef (by simp)

theorem ownerEntry_congr {a b : BufDesc} (h : presFrame a b) (i : Nat) :
    ownerEntry b i = ownerEntry a i := by
  rcases h with rfl | rfl <;> rfl

theorem ownerKey_congr {a b : BufDesc} (h : presFrame a b) :
    ownerKey b = ownerKey a := by
  rcases h with rfl | rfl <;> rfl

/-- The full postcondition of a successful BufMgr::allocBuf on an invariant
state: the invariant is preserved, the victim was unpinned, and the victim
frame comes back cleared with no index entry left for it. -/
theorem Inv_allocBuf_ok {laps : Nat} {s : BufState} {v : Nat}
    {t : BufState} (hInv : Inv s) (h : allocBuf laps s = some (.ok v, t)) :
    Inv t ∧ v < s.numBufs ∧ (frameAt t v).valid = false ∧
      (frameAt t v).file = none ∧ (frameAt t v).pinCnt = 0 ∧
      (frameAt s v).pinCnt = 0 ∧
      (∀ a b, htLookup s.hashTable a b = none →
        htLookup t.hashTable a b = none) ∧
      t.numBufs = s.numBufs := by
  obtain ⟨hn0, hlen, hpoolen, hhand, hclean, howned, hrange, hchar, huniq,
    hpn⟩ := hInv
  unfold allocBuf at h
  have hfp : FoundPres (advanceClock s) v t := loop_ok_pres h
  have hn : t.numBufs = s.numBufs := hfp.hn
  have hpool : t.bufPool = s.bufPool := hfp.hpool
  have hlen2 : t.bufDescTable.length = s.bufDescTable.length := hfp.hlen
  have hvlt : v < s.numBufs := hfp.hv (Nat.mod_lt _ hn0)
  have hframes : ∀ i, i ≠ v → presFrame (frameAt s i) (frameAt t i) :=
    fun i hi => hfp.hframes i hi
  have hpoolAt : ∀ i, poolAt t i = poolAt s i := by
    intro i
    unfold poolAt
    rw [hpool]
  rcases hfp.hvict with ⟨c1, c2, c3, c4, c5, c6⟩ |
      ⟨c1, c2, c3, c4, c5, c6, c7⟩
  · -- the victim was an invalid frame: nothing was evicted
    have c1s : (frameAt s v).valid = false := c1
    have c2s : t.hashTable = s.hashTable := c2
    have c6s : presFrame (frameAt s v) (frameAt t v) := c6
    have hpresAll : ∀ i, presFrame (frameAt s i) (frameAt t i) := by
      intro i
      by_cases hi : i = v
      · subst hi
        exact c6s
      · exact hframes i hi
    have hvclean := hclean v hvlt c1s
    have hfv := presFrame_fields c6s
    refine ⟨⟨by omega, by rw [hlen2, hlen, hn], by rw [hpool, hpoolen, hn],
      by rw [hfp.hhand, hn]; exact hvlt, ?_, ?_, ?_, ?_, ?_, ?_⟩,
      hvlt, by rw [hfv.2.2.2.1]; exact c1s,
      by rw [hfv.2.1]; exact hvclean.1,
      by rw [hfv.2.2.2.2.2]; exact hvclean.2, hvclean.2,
      fun a b hab => c2s ▸ hab, hn⟩
    · intro i hi hval
      have hf := presFrame_fields (hpresAll i)
      rw [hf.2.2.2.1] at hval
      rw [hf.2.1, hf.2.2.2.2.2]
      exact hclean i (by omega) hval
    · intro i hi hval
      have hf := presFrame_fields (hpresAll i)
      rw [hf.2.2.2.1] at hval
      rw [hf.2.1]
      exact howned i (by omega) hval
    · intro e he
      rw [c2s] at he
      rw [hn]
      exact hrange e he
    · intro i hi
      rw [c2s, ownerEntry_congr (hpresAll i),
        hchar i (by omega)]
    · intro i hi j hj hvi hvj hkey
      have hfi := presFrame_fields (hpresAll i)
      have hfj := presFrame_fields (hpresAll j)
      rw [hfi.2.2.2.1] at hvi
      rw [hfj.2.2.2.1] at hvj
      rw [ownerKey_congr (hpresAll i), ownerKey_congr (hpresAll j)] at hkey
      exact huniq i (by omega) j (by omega) hvi hvj hkey
    · intro i hi hval
      have hf := presFrame_fields (hpresAll i)
      rw [hf.2.2.2.1] at hval
      rw [hpoolAt i, hf.2.2.1]
      exact hpn i (by omega) hval
  · -- the victim held a valid page: it was cleared and deregistered
    have c1s : (frameAt s v).valid = true := c1
    have c2s : (frameAt s v).pinCnt = 0 := c2
    have c4s : t.hashTable = htRemove s.hashTable
        ((frameAt s v).file.getD 0) (frameAt s v).pageNo := c4
    have c5s : frameAt t v = BufDesc.Clear (frameAt s v) := c5
    have hvalid_t : (frameAt t v).valid = false := by
      rw [c5s]
      rfl
    refine ⟨⟨by omega, by rw [hlen2, hlen, hn], by rw [hpool, hpoolen, hn],
      by rw [hfp.hhand, hn]; exact hvlt, ?_, ?_, ?_, ?_, ?_, ?_⟩,
      hvlt, hvalid_t, by rw [c5s]; rfl, by rw [c5s]; rfl, c2s,
      fun a b hab => by
        rw [c4s]
        exact htLookup_none_htRemove _ _ _ _ _ hab, hn⟩
    · intro i hi hval
      by_cases hiv : i = v
      · subst hiv
        rw [c5s]
        exact ⟨rfl, rfl⟩
      · have hf := presFrame_fields (hframes i hiv)
        rw [hf.2.2.2.1] at hval
        rw [hf.2.1, hf.2.2.2.2.2]
        exact hclean i (by omega) hval
    · intro i hi hval
      by_cases hiv : i = v
      · subst hiv
        rw [hvalid_t] at hval
        exact absurd hval (by simp)
      · have hf := presFrame_fields (hframes i hiv)
        rw [hf.2.2.2.1] at hval
        rw [hf.2.1]
        exact howned i (by omega) hval
    · intro e he
      rw [c4s] at he
      rw [hn]
      exact hrange e ((mem_htRemove _ _ _ e).mp he).1
    · intro i hi
      have hilt : i < s.numBufs := by omega
      rw [c4s, htRemove_filter, hchar i hilt]
      by_cases hiv : i = v
      · subst hiv
        unfold ownerEntry
        rw [if_pos c1s, if_neg (by rw [hvalid_t]; simp)]
        have : ownerKey (frameAt s i) =
            ((frameAt s i).file.getD 0, (frameAt s i).pageNo) := rfl
        rw [show htRemove [(ownerKey (frameAt s i), i)]
              ((frameAt s i).file.getD 0) (frameAt s i).pageNo = [] from
            htRemove_single_self (ownerKey (frameAt s i)) i]
      · rw [ownerEntry_congr (hframes i hiv)]
        unfold ownerEntry
        by_cases hvi : (frameAt s i).valid = true
        · rw [if_pos hvi]
          have hne : ownerKey (frameAt s i) ≠
              ((frameAt s v).file.getD 0, (frameAt s v).pageNo) := by
            intro hk
            exact hiv (huniq i hilt v hvlt hvi c1s hk)
          exact htRemove_single_ne _ _ _ _ hne
        · rw [if_neg hvi]
          rfl
    · intro i hi j hj hvi hvj hkey
      by_cases hiv : i = v
      · subst hiv
        rw [hvalid_t] at hvi
        exact absurd hvi (by simp)
      · by_cases hjv : j = v
        · subst hjv
          rw [hvalid_t] at hvj
          exact absurd hvj (by simp)
        · have hfi := presFrame_fields (hframes i hiv)
          have hfj := presFrame_fields (hframes j hjv)
          rw [hfi.2.2.2.1] at hvi
          rw [hfj.2.2.2.1] at hvj
          rw [ownerKey_congr (hframes i hiv),
            ownerKey_congr (hframes j hjv)] at hkey
          exact huniq i (by omega) j (by omega) hvi hvj hkey
    · intro i hi hval
      by_cases hiv : i = v
      · subst hiv
        rw [hvalid_t] at hval
        exact absurd hval (by simp)
      · have hf := presFrame_fields (hframes i hiv)
        rw [hf.2.2.2.1] at hval
        rw [hpoolAt i, hf.2.2.1]
        exact hpn i (by omega) hval

/-- An allocBuf that throws BufferExceededException leaves the index, the
pool and the event log untouched and preserves the invariant. -/
theorem Inv_allocBuf_err {laps : Nat} {s : BufState} {e : BufError}
    {t : BufState} (hInv : Inv s) (h : allocBuf laps s = some (.err e, t)) :
    Inv t ∧ e = .bufferExceeded ∧ t.hashTable = s.hashTable ∧
      t.events = s.events ∧ t.bufPool = s.bufPool := by
  obtain ⟨hn0, hlen, hpoolen, hhand, hclean, howned, hrange, hchar, huniq,
    hpn⟩ := hInv
  unfold allocBuf at h
  obtain ⟨he, hep⟩ := loop_err_pres h
  have hn : t.numBufs = s.numBufs := hep.hn
  have hpool : t.bufPool = s.bufPool := hep.hpool
  have hht : t.hashTable = s.hashTable := hep.hht
  have hev : t.events = s.events := hep.hev
  have hlen2 : t.bufDescTable.length = s.bufDescTable.length := hep.hlen
  have hpresAll : ∀ i, presFrame (frameAt s i) (frameAt t i) :=
    fun i => hep.hframes i
  have hpoolAt : ∀ i, poolAt t i = poolAt s i := by
    intro i
    unfold poolAt
    rw [hpool]
  have hhand2 : t.clockHand < t.numBufs :=
    hep.hhand (Nat.mod_lt _ hn0)
  refine ⟨⟨by omega, by rw [hlen2, hlen, hn], by rw [hpool, hpoolen, hn],
    hhand2, ?_, ?_, ?_, ?_, ?_, ?_⟩, he, hht, hev, hpool⟩
  · intro i hi hval
    have hf := presFrame_fields (hpresAll i)
    rw [hf.2.2.2.1] at hval
    rw [hf.2.1, hf.2.2.2.2.2]
    exact hclean i (by omega) hval
  · intro i hi hval
    have hf := presFrame_fields (hpresAll i)
    rw [hf.2.2.2.1] at hval
    rw [hf.2.1]
    exact howned i (by omega) hval
  · intro e2 he2
    rw [hht] at he2
    rw [hn]
    exact hrange e2 he2
  · intro i hi
    rw [hht, ownerEntry_congr (hpresAll i), hchar i (by omega)]
  · intro i hi j hj hvi hvj hkey
    have hfi := presFrame_fields (hpresAll i)
    have hfj := presFrame_fields (hpresAll j)
    rw [hfi.2.2.2.1] at hvi
    rw [hfj.2.2.2.1] at hvj
    rw [ownerKey_congr (hpresAll i), ownerKey_congr (hpresAll j)] at hkey
    exact huniq i (by omega) j (by omega) hvi hvj hkey
  · intro i hi hval
    have hf := presFrame_fields (hpresAll i)
    rw [hf.2.2.2.1] at hval
    rw [hpoolAt i, hf.2.2.1]
    exact hpn i (by omega) hval

/-! Invariant preservation through each public operation. -/

/-- Re-pinning or unpinning a valid frame (the frame keeps its validity
and owner) preserves the invariant. -/
theorem Inv_setFrame_same_owner {s : BufState} (hInv : Inv s) {fr : Nat}
    {nd : BufDesc} (hfr : fr < s.numBufs)
    (hval : (frameAt s fr).valid = true) (hvalid : nd.valid = true)
    (hfile : nd.file = (frameAt s fr).file)
    (hpage : nd.pageNo = (frameAt s fr).pageNo) :
    Inv (setFrame s fr nd) := by
  obtain ⟨hn0, hlen, hpoolen, hhand, hclean, howned, hrange, hchar, huniq,
    hpn⟩ := hInv
  have hfr2 : fr < s.bufDescTable.length := by omega
  have hkey : ownerKey nd = ownerKey (frameAt s fr) := by
    unfold ownerKey
    rw [hfile, hpage]
  have hAt : ∀ i, frameAt (setFrame s fr nd) i =
      if i = fr then nd else frameAt s i := by
    intro i
    by_cases hi : i = fr
    · subst hi
      rw [if_pos rfl]
      exact frameAt_setFrame_self s _ _ hfr2
    · rw [if_neg hi]
      exact frameAt_setFrame_ne s _ _ _ (fun hh => hi hh.symm)
  refine ⟨hn0, by simp [setFrame, hlen], hpoolen, hhand, ?_, ?_, hrange,
    ?_, ?_, ?_⟩
  · intro i hi hv
    rw [hAt i] at hv ⊢
    by_cases hif : i = fr
    · rw [if_pos hif] at hv
      rw [hvalid] at hv
      exact absurd hv (by simp)
    · rw [if_neg hif] at hv ⊢
      exact hclean i hi hv
  · intro i hi hv
    rw [hAt i] at hv ⊢
    by_cases hif : i = fr
    · rw [if_pos hif] at hv ⊢
      rw [hfile]
      exact howned fr hfr hval
    · rw [if_neg hif] at hv ⊢
      exact howned i hi hv
  · intro i hi
    rw [hAt i]
    by_cases hif : i = fr
    · rw [if_pos hif, hif]
      show s.hashTable.filter (fun e => e.2 == fr) = ownerEntry nd fr
      rw [hchar fr hfr]
      unfold ownerEntry
      rw [hval, hvalid, hkey]
    · rw [if_neg hif]
      exact hchar i hi
  · intro i hi j hj hvi hvj hk
    rw [hAt i] at hvi hk
    rw [hAt j] at hvj hk
    by_cases hif : i = fr <;> by_cases hjf : j = fr
    · omega
    · rw [if_pos hif] at hk
      rw [if_neg hjf] at hvj hk
      rw [hkey] at hk
      rw [hif]
      exact huniq fr hfr j hj hval hvj hk
    · rw [if_neg hif] at hvi hk
      rw [if_pos hjf] at hk
      rw [hkey] at hk
      rw [hjf]
      exact huniq i hi fr hfr hvi hval hk
    · rw [if_neg hif] at hvi hk
      rw [if_neg hjf] at hvj hk
      exact huniq i hi j hj hvi hvj hk
  · intro i hi hv
    rw [hAt i] at hv ⊢
    by_cases hif : i = fr
    · subst hif
      rw [if_pos rfl] at hv ⊢
      rw [hpage]
      exact hpn i hi hval
    · rw [if_neg hif] at hv ⊢
      exact hpn i hi hv

/-- Loading a new page into an invalid frame, inserting the index entry
and calling Set on the frame preserves the invariant; this is the shared
tail of the miss path of readPage and of allocPage. -/
theorem Inv_insertSet {u : BufState} (hInv : Inv u) {fr f p : Nat}
    {pg : Page} (hfr : fr < u.numBufs)
    (hinv : (frameAt u fr).valid = false)
    (habs : htLookup u.hashTable f p = none)
    (hpg : pg.page_number = p) :
    Inv { u with
      bufDescTable := u.bufDescTable.set fr (BufDesc.Set (frameAt u fr) f p),
      bufPool := u.bufPool.set fr pg,
      hashTable := ((f, p), fr) :: u.hashTable } := by
  obtain ⟨hn0, hlen, hpoolen, hhand, hclean, howned, hrange, hchar, huniq,
    hpn⟩ := hInv
  have hfr2 : fr < u.bufDescTable.length := by omega
  have habs2 := (htLookup_none_iff _ _ _).mp habs
  have hAt : ∀ i, frameAt { u with
      bufDescTable := u.bufDescTable.set fr (BufDesc.Set (frameAt u fr) f p),
      bufPool := u.bufPool.set fr pg,
      hashTable := ((f, p), fr) :: u.hashTable } i =
      if i = fr then BufDesc.Set (frameAt u fr) f p else frameAt u i := by
    intro i
    by_cases hi : i = fr
    · subst hi
      rw [if_pos rfl]
      exact getD_set_self _ _ _ _ hfr2
    · rw [if_neg hi]
      exact getD_set_ne _ _ _ _ _ (fun hh => hi hh.symm)
  have hownedIn : ∀ j, j < u.numBufs → (frameAt u j).valid = true →
      (ownerKey (frameAt u j), j) ∈ u.hashTable := by
    intro j hj hvj
    have hc := hchar j hj
    have : (ownerKey (frameAt u j), j) ∈
        u.hashTable.filter (fun e => e.2 == j) := by
      rw [hc]
      unfold ownerEntry
      rw [if_pos hvj]
      exact List.mem_singleton.mpr rfl
    exact List.mem_of_mem_filter this
  refine ⟨hn0, by simpa using hlen, by simpa using hpoolen, hhand, ?_, ?_,
    ?_, ?_, ?_, ?_⟩
  · intro i hi hv
    rw [hAt i] at hv ⊢
    by_cases hif : i = fr
    · rw [if_pos hif] at hv
      exact absurd hv (by simp [BufDesc.Set])
    · rw [if_neg hif] at hv ⊢
      exact hclean i hi hv
  · intro i hi hv
    rw [hAt i] at hv ⊢
    by_cases hif : i = fr
    · rw [if_pos hif]
      rfl
    · rw [if_neg hif] at hv ⊢
      exact howned i hi hv
  · intro e he
    simp only [List.mem_cons] at he
    rcases he with rfl | he
    · exact hfr
    · exact hrange e he
  · intro i hi
    rw [hAt i, filter_cons_valueIs]
    by_cases hif : fr = i
    · rw [if_pos hif, if_pos hif.symm]
      subst hif
      rw [hchar fr hi]
      unfold ownerEntry
      rw [if_neg (by rw [hinv]; simp), if_pos (by rfl)]
      rfl
    · rw [if_neg hif, if_neg (fun hh => hif hh.symm)]
      exact hchar i hi
  · intro i hi j hj hvi hvj hk
    rw [hAt i] at hvi hk
    rw [hAt j] at hvj hk
    by_cases hif : i = fr <;> by_cases hjf : j = fr
    · omega
    · rw [if_pos hif] at hk
      rw [if_neg hjf] at hvj hk
      exfalso
      have hkj : ownerKey (frameAt u j) = (f, p) := by
        have : ownerKey (BufDesc.Set (frameAt u fr) f p) = (f, p) := rfl
        rw [this] at hk
        exact hk.symm
      exact habs2 _ (hownedIn j hj hvj) (by rw [hkj])
    · rw [if_neg hif] at hvi hk
      rw [if_pos hjf] at hk
      exfalso
      have hki : ownerKey (frameAt u i) = (f, p) := by
        have : ownerKey (BufDesc.Set (frameAt u fr) f p) = (f, p) := rfl
        rw [this] at hk
        exact hk
      exact habs2 _ (hownedIn i hi hvi) (by rw [hki])
    · rw [if_neg hif] at hvi hk
      rw [if_neg hjf] at hvj hk
      exact huniq i hi j hj hvi hvj hk
  · intro i hi hv
    rw [hAt i] at hv ⊢
    show (({ u with
      bufDescTable := u.bufDescTable.set fr (BufDesc.Set (frameAt u fr) f p),
      bufPool := u.bufPool.set fr pg,
      hashTable := ((f, p), fr) :: u.hashTable } :
        BufState).bufPool.getD i default).page_number = _
    by_cases hif : i = fr
    · subst hif
      rw [if_pos rfl]
      show ((u.bufPool.set i pg).getD i default).page_number = _
      rw [getD_set_self _ _ _ _ (by omega), hpg]
      rfl
    · rw [if_neg hif] at hv ⊢
      show ((u.bufPool.set fr pg).getD i default).page_number =
        (frameAt u i).pageNo
      rw [getD_set_ne _ _ _ _ _ (fun hh => hif hh.symm)]
      exact hpn i hi hv

/-- Clearing a valid frame while removing its index entry (under the
frame's owner key) preserves the invariant; this is the shared shape of
the disposePage body and the flushFile dirty branch. -/
theorem Inv_clearRemove {s : BufState} (hInv : Inv s) {fr f p : Nat}
    (hfr : fr < s.numBufs) (hval : (frameAt s fr).valid = true)
    (hkey : ownerKey (frameAt s fr) = (f, p)) :
    Inv { s with
      bufDescTable := s.bufDescTable.set fr (BufDesc.Clear (frameAt s fr)),
      hashTable := htRemove s.hashTable f p } := by
  obtain ⟨hn0, hlen, hpoolen, hhand, hclean, howned, hrange, hchar, huniq,
    hpn⟩ := hInv
  have hfr2 : fr < s.bufDescTable.length := by omega
  have hAt : ∀ i, frameAt { s with
      bufDescTable := s.bufDescTable.set fr (BufDesc.Clear (frameAt s fr)),
      hashTable := htRemove s.hashTable f p } i =
      if i = fr then BufDesc.Clear (frameAt s fr) else frameAt s i := by
    intro i
    by_cases hi : i = fr
    · subst hi
      rw [if_pos rfl]
      exact getD_set_self _ _ _ _ hfr2
    · rw [if_neg hi]
      exact getD_set_ne _ _ _ _ _ (fun hh => hi hh.symm)
  refine ⟨hn0, by simpa using hlen, hpoolen, hhand, ?_, ?_, ?_, ?_, ?_, ?_⟩
  · intro i hi hv
    rw [hAt i] at hv ⊢
    by_cases hif : i = fr
    · rw [if_pos hif]
      exact ⟨rfl, rfl⟩
    · rw [if_neg hif] at hv ⊢
      exact hclean i hi hv
  · intro i hi hv
    rw [hAt i] at hv ⊢
    by_cases hif : i = fr
    · rw [if_pos hif] at hv
      exact absurd hv (by simp [BufDesc.Clear])
    · rw [if_neg hif] at hv ⊢
      exact howned i hi hv
  · intro e he
    exact hrange e ((mem_htRemove _ _ _ e).mp he).1
  · intro i hi
    rw [hAt i]
    show (htRemove s.hashTable f p).filter (fun e => e.2 == i) =
      ownerEntry (if i = fr then BufDesc.Clear (frameAt s fr)
        else frameAt s i) i
    rw [htRemove_filter, hchar i hi]
    by_cases hif : i = fr
    · rw [if_pos hif, hif]
      unfold ownerEntry
      rw [if_pos hval, if_neg (by simp [BufDesc.Clear]), hkey]
      exact htRemove_single_self (f, p) fr
    · rw [if_neg hif]
      unfold ownerEntry
      by_cases hvi : (frameAt s i).valid = true
      · rw [if_pos hvi]
        refine htRemove_single_ne _ _ _ _ ?_
        intro hk
        exact hif (huniq i hi fr hfr hvi hval (by rw [hk, hkey]))
      · rw [if_neg hvi]
        rfl
  · intro i hi j hj hvi hvj hk
    rw [hAt i] at hvi hk
    rw [hAt j] at hvj hk
    by_cases hif : i = fr
    · rw [if_pos hif] at hvi
      exact absurd hvi (by simp [BufDesc.Clear])
    · by_cases hjf : j = fr
      · rw [if_pos hjf] at hvj
        exact absurd hvj (by simp [BufDesc.Clear])
      · rw [if_neg hif] at hvi hk
        rw [if_neg hjf] at hvj hk
        exact huniq i hi j hj hvi hvj hk
  · intro i hi hv
    rw [hAt i] at hv ⊢
    by_cases hif : i = fr
    · rw [if_pos hif] at hv
      exact absurd hv (by simp [BufDesc.Clear])
    · rw [if_neg hif] at hv ⊢
      exact hpn i hi hv

/-! Evaluation lemmas describing each operation branch by branch. -/

theorem readPage_hit_eq (laps f p : Nat) (s : BufState) {fr : Nat}
    (hlk : htLookup s.hashTable f p = some fr) :
    readPage laps f p s = some (.ok (some fr),
      setFrame { s with accesses := s.accesses + 1 } fr
        { frameAt s fr with
          refbit := true,
          pinCnt := (frameAt s fr).pinCnt + 1 }) := by
  unfold readPage
  dsimp only
  rw [hlk]
  rfl

theorem readPage_none_eq (laps f p : Nat) (s : BufState)
    (hlk : htLookup s.hashTable f p = none)
    (hab : allocBuf laps { s with accesses := s.accesses + 1 } = none) :
    readPage laps f p s = none := by
  unfold readPage
  dsimp only
  rw [hlk, hab]

theorem readPage_exhausted_eq (laps f p : Nat) (s : BufState)
    {e : BufError} {s1 : BufState}
    (hlk : htLookup s.hashTable f p = none)
    (hab : allocBuf laps { s with accesses := s.accesses + 1 } =
      some (.err e, s1)) :
    readPage laps f p s = some (.ok none, s1) := by
  unfold readPage
  dsimp only
  rw [hlk, hab]

theorem readPage_miss_eq (laps f p : Nat) (s : BufState)
    {fr : Nat} {s1 : BufState}
    (hlk : htLookup s.hashTable f p = none)
    (hab : allocBuf laps { s with accesses := s.accesses + 1 } =
      some (.ok fr, s1))
    (habs : htLookup s1.hashTable f p = none) :
    readPage laps f p s = some (.ok (some fr),
      { s1 with
        bufDescTable := s1.bufDescTable.set fr
          (BufDesc.Set (frameAt s1 fr) f p),
        bufPool := s1.bufPool.set fr
          ⟨p, (((s1.disk.find? (fun e => e.1.1 == f && e.1.2 == p)).map
            (fun e => e.2)).getD 0)⟩,
        hashTable := ((f, p), fr) :: s1.hashTable,
        events := s1.events ++ [Ev.read f p],
        diskreads := s1.diskreads + 1 }) := by
  unfold readPage htInsert
  dsimp only [storeRead]
  rw [hlk, hab]
  dsimp only
  rw [habs]
  rfl

theorem unPinPage_absent_eq (f p : Nat) (d : Bool) (s : BufState)
    (hlk : htLookup s.hashTable f p = none) :
    unPinPage f p d s = (.ok (), { s with accesses := s.accesses + 1 }) := by
  unfold unPinPage
  dsimp only
  rw [hlk]

theorem unPinPage_zero_eq (f p : Nat) (d : Bool) (s : BufState) {fr : Nat}
    (hlk : htLookup s.hashTable f p = some fr)
    (hpin : (frameAt s fr).pinCnt = 0) :
    unPinPage f p d s = (.err (.pageNotPinned f p fr),
      { s with accesses := s.accesses + 1 }) := by
  have hpin2 : (frameAt { s with accesses := s.accesses + 1 } fr).pinCnt
      = 0 := hpin
  unfold unPinPage
  dsimp only
  rw [hlk]
  dsimp only
  rw [if_pos hpin2]

theorem unPinPage_dec_eq (f p : Nat) (d : Bool) (s : BufState) {fr : Nat}
    (hlk : htLookup s.hashTable f p = some fr)
    (hpin : (frameAt s fr).pinCnt ≠ 0) :
    unPinPage f p d s = (.ok (),
      setFrame { s with accesses := s.accesses + 1 } fr
        (if d then { frameAt s fr with
            pinCnt := (frameAt s fr).pinCnt - 1, dirty := true }
          else { frameAt s fr with
            pinCnt := (frameAt s fr).pinCnt - 1 })) := by
  have hpin2 : ¬ (frameAt { s with accesses := s.accesses + 1 } fr).pinCnt
      = 0 := hpin
  unfold unPinPage
  dsimp only
  rw [hlk]
  dsimp only
  rw [if_neg hpin2]
  cases d <;> rfl

theorem disposePage_absent_eq (f p : Nat) (s : BufState)
    (hlk : htLookup s.hashTable f p = none) :
    disposePage f p s = (.ok (), { s with accesses := s.accesses + 1 }) := by
  unfold disposePage
  dsimp only
  rw [hlk]

theorem disposePage_cached_eq (f p : Nat) (s : BufState) {fr : Nat}
    (hlk : htLookup s.hashTable f p = some fr) :
    disposePage f p s = (.ok (),
      { s with
        bufDescTable := s.bufDescTable.set fr
          (BufDesc.Clear (frameAt s fr)),
        hashTable := htRemove s.hashTable f p,
        disk := s.disk.filter (fun e => !(e.1.1 == f && e.1.2 == p)),
        events := s.events ++ [Ev.del f p],
        accesses := s.accesses + 1 }) := by
  unfold disposePage
  dsimp only [storeDelete]
  rw [hlk]
  rfl

theorem allocPage_none_eq (laps f : Nat) (s : BufState)
    (hab : allocBuf laps { s with accesses := s.accesses + 1 } = none) :
    allocPage laps f s = none := by
  unfold allocPage
  dsimp only
  rw [hab]

theorem allocPage_err_eq (laps f : Nat) (s : BufState) {e : BufError}
    {s1 : BufState}
    (hab : allocBuf laps { s with accesses := s.accesses + 1 } =
      some (.err e, s1)) :
    allocPage laps f s = some (.err e, s1) := by
  unfold allocPage
  dsimp only
  rw [hab]

theorem allocPage_ok_eq (laps f : Nat) (s : BufState) {fr : Nat}
    {s1 : BufState}
    (hab : allocBuf laps { s with accesses := s.accesses + 1 } =
      some (.ok fr, s1))
    (hfrlen : fr < s1.bufPool.length)
    (habs : htLookup s1.hashTable f s1.nextPageId = none) :
    allocPage laps f s = some (.ok (s1.nextPageId, fr),
      { s1 with
        bufDescTable := s1.bufDescTable.set fr
          (BufDesc.Set (frameAt s1 fr) f s1.nextPageId),
        bufPool := s1.bufPool.set fr ⟨s1.nextPageId, 0⟩,
        hashTable := ((f, s1.nextPageId), fr) :: s1.hashTable,
        disk := ((f, s1.nextPageId), 0) :: s1.disk,
        nextPageId := s1.nextPageId + 1,
        events := s1.events ++ [Ev.alloc f] }) := by
  unfold allocPage htInsert
  dsimp only [storeAlloc]
  rw [hab]
  dsimp only
  rw [show poolAt { s1 with
      bufPool := s1.bufPool.set fr (⟨s1.nextPageId, 0⟩ : Page),
      disk := ((f, s1.nextPageId), 0) :: s1.disk,
      nextPageId := s1.nextPageId + 1,
      events := s1.events ++ [Ev.alloc f] } fr = ⟨s1.nextPageId, 0⟩ from
    getD_set_self _ _ _ _ hfrlen]
  rw [habs]
  rfl

theorem allocPage_insertFail_eq (laps f : Nat) (s : BufState) {fr : Nat}
    {s1 : BufState} {j : Nat}
    (hab : allocBuf laps { s with accesses := s.accesses + 1 } =
      some (.ok fr, s1))
    (hfrlen : fr < s1.bufPool.length)
    (hdup : htLookup s1.hashTable f s1.nextPageId = some j) :
    allocPage laps f s = some (.err .hashAlreadyPresent,
      { s1 with
        bufPool := s1.bufPool.set fr ⟨s1.nextPageId, 0⟩,
        disk := ((f, s1.nextPageId), 0) :: s1.disk,
        nextPageId := s1.nextPageId + 1,
        events := s1.events ++ [Ev.alloc f] }) := by
  unfold allocPage htInsert
  dsimp only [storeAlloc]
  rw [hab]
  dsimp only
  rw [show poolAt { s1 with
      bufPool := s1.bufPool.set fr (⟨s1.nextPageId, 0⟩ : Page),
      disk := ((f, s1.nextPageId), 0) :: s1.disk,
      nextPageId := s1.nextPageId + 1,
      events := s1.events ++ [Ev.alloc f] } fr = ⟨s1.nextPageId, 0⟩ from
    getD_set_self _ _ _ _ hfrlen]
  rw [hdup]

/-! Branch lemmas for the flushFile loop, and invariant preservation for
every public operation. -/

theorem flushGo_skip {f : Nat} {s : BufState} {i fuel : Nat}
    (hf : (frameAt s i).file ≠ some f) :
    flushGo f s i (fuel + 1) = flushGo f s (i + 1) fuel := by
  simp [flushGo, hf]

theorem flushGo_bad {f : Nat} {s : BufState} {i fuel : Nat}
    (hf : (frameAt s i).file = some f)
    (hv : (frameAt s i).valid = false) :
    flushGo f s i (fuel + 1) = (.err (.badBuffer i), s) := by
  simp [flushGo, hf, hv]

theorem flushGo_pinned {f : Nat} {s : BufState} {i fuel : Nat}
    (hf : (frameAt s i).file = some f)
    (hv : (frameAt s i).valid = true)
    (hp : (frameAt s i).pinCnt > 0) :
    flushGo f s i (fuel + 1) =
      (.err (.pagePinned f (frameAt s i).pageNo i), s) := by
  simp [flushGo, hf, hv, hp]

theorem flushGo_dirty {f : Nat} {s : BufState} {i fuel : Nat}
    (hf : (frameAt s i).file = some f)
    (hv : (frameAt s i).valid = true)
    (hp : ¬ (frameAt s i).pinCnt > 0)
    (hd : (frameAt s i).dirty = true) :
    flushGo f s i (fuel + 1) =
      flushGo f (flushEvict f s i (frameAt s i)) (i + 1) fuel := by
  simp [flushGo, hf, hv, hp, hd]

theorem flushGo_clean {f : Nat} {s : BufState} {i fuel : Nat}
    (hf : (frameAt s i).file = some f)
    (hv : (frameAt s i).valid = true)
    (hp : ¬ (frameAt s i).pinCnt > 0)
    (hd : (frameAt s i).dirty = false) :
    flushGo f s i (fuel + 1) = flushGo f s (i + 1) fuel := by
  simp [flushGo, hf, hv, hp, hd]

theorem flushEvict_pres (f : Nat) (s : BufState) (i : Nat) (d : BufDesc) :
    (flushEvict f s i d).numBufs = s.numBufs ∧
    (flushEvict f s i d).bufPool = s.bufPool ∧
    (flushEvict f s i d).bufDescTable =
      s.bufDescTable.set i (BufDesc.Clear d) ∧
    (flushEvict f s i d).clockHand = s.clockHand ∧
    (flushEvict f s i d).nextPageId = s.nextPageId ∧
    (flushEvict f s i d).accesses = s.accesses ∧
    (flushEvict f s i d).diskreads = s.diskreads ∧
    (flushEvict f s i d).hashTable = htRemove s.hashTable f d.pageNo ∧
    (flushEvict f s i d).events = s.events ++
      [Ev.write f (poolAt s i).page_number (poolAt s i).data] ∧
    (flushEvict f s i d).diskwrites = s.diskwrites + 1 := by
  simp [flushEvict, storeWrite, setFrame]

theorem Inv_flushGo {f : Nat} (fuel : Nat) {s : BufState} {i : Nat}
    (hInv : Inv s) : Inv (flushGo f s i fuel).2 := by
  induction fuel generalizing s i with
  | zero => exact hInv
  | succ fuel ih =>
    by_cases hf : (frameAt s i).file = some f
    · by_cases hv : (frameAt s i).valid = false
      · rw [flushGo_bad hf hv]
        exact hInv
      · have hvt : (frameAt s i).valid = true := by
          simpa using hv
        by_cases hp : (frameAt s i).pinCnt > 0
        · rw [flushGo_pinned hf hvt hp]
          exact hInv
        · by_cases hd : (frameAt s i).dirty = true
          · rw [flushGo_dirty hf hvt hp hd]
            apply ih
            have hfr : i < s.numBufs := by
              have h1 := frameAt_valid_lt s i hvt
              have h2 := hInv.2.1
              omega
            have hkey : ownerKey (frameAt s i) =
                (f, (frameAt s i).pageNo) := by
              unfold ownerKey
              rw [hf]
              rfl
            obtain ⟨e1, e2, e3, e4, e5, e6, e7, e8, e9, e10⟩ :=
              flushEvict_pres f s i (frameAt s i)
            refine Inv_congr ?_ ?_ ?_ ?_ ?_
              (Inv_clearRemove hInv hfr hvt hkey)
            · exact e1
            · exact e3
            · exact e2
            · exact e8
            · exact e4
          · rw [flushGo_clean hf hvt hp (by simpa using hd)]
            exact ih hInv
    · rw [flushGo_skip hf]
      exact ih hInv

theorem Inv_accesses {s : BufState} (hInv : Inv s) :
    Inv { s with accesses := s.accesses + 1 } :=
  Inv_congr rfl rfl rfl rfl rfl hInv

theorem Inv_flushFile (f : Nat) (s : BufState) (hInv : Inv s) :
    Inv (flushFile f s).2 :=
  Inv_flushGo _ (Inv_accesses hInv)

theorem Inv_readPage {laps f p : Nat} {s : BufState}
    {o : OpOut (Option Nat)} {t : BufState} (hInv : Inv s)
    (h : readPage laps f p s = some (o, t)) : Inv t := by
  have h1 : Inv { s with accesses := s.accesses + 1 } := Inv_accesses hInv
  cases hlk : htLookup s.hashTable f p with
  | some fr =>
    rw [readPage_hit_eq laps f p s hlk] at h
    simp only [Option.some.injEq, Prod.mk.injEq] at h
    obtain ⟨ho, ht⟩ := h
    subst ht
    have hl := Inv_lookup hInv hlk
    exact Inv_setFrame_same_owner h1 hl.1 hl.2.1 hl.2.1 rfl rfl
  | none =>
    cases hab : allocBuf laps { s with accesses := s.accesses + 1 } with
    | none =>
      rw [readPage_none_eq laps f p s hlk hab] at h
      exact absurd h (by simp)
    | some r =>
      obtain ⟨res, s1⟩ := r
      cases res with
      | err e =>
        rw [readPage_exhausted_eq laps f p s hlk hab] at h
        simp only [Option.some.injEq, Prod.mk.injEq] at h
        obtain ⟨ho, ht⟩ := h
        subst ht
        exact (Inv_allocBuf_err h1 hab).1
      | ok fr =>
        obtain ⟨hInv1, hfrlt, hinv_v, hfile_v, hpin_v, hpin_s, habs_mono,
          hn1⟩ := Inv_allocBuf_ok h1 hab
        have habs : htLookup s1.hashTable f p = none := habs_mono f p hlk
        rw [readPage_miss_eq laps f p s hlk hab habs] at h
        simp only [Option.some.injEq, Prod.mk.injEq] at h
        obtain ⟨ho, ht⟩ := h
        subst ht
        have hfr1 : fr < s1.numBufs := by
          have : s1.numBufs = s.numBufs := hn1
          omega
        exact Inv_congr rfl rfl rfl rfl rfl
          (Inv_insertSet hInv1 hfr1 hinv_v habs rfl)

theorem Inv_unPinPage (f p : Nat) (d : Bool) (s : BufState)
    (hInv : Inv s) : Inv (unPinPage f p d s).2 := by
  have h1 : Inv { s with accesses := s.accesses + 1 } := Inv_accesses hInv
  cases hlk : htLookup s.hashTable f p with
  | none =>
    rw [unPinPage_absent_eq f p d s hlk]
    exact h1
  | some fr =>
    by_cases hpin : (frameAt s fr).pinCnt = 0
    · rw [unPinPage_zero_eq f p d s hlk hpin]
      exact h1
    · rw [unPinPage_dec_eq f p d s hlk hpin]
      have hl := Inv_lookup hInv hlk
      cases d
      · exact Inv_setFrame_same_owner h1 hl.1 hl.2.1 hl.2.1 rfl rfl
      · exact Inv_setFrame_same_owner h1 hl.1 hl.2.1 hl.2.1 rfl rfl

theorem Inv_set_pool_invalid {u : BufState} (hInv : Inv u) {fr : Nat}
    {pg : Page} (hinv : (frameAt u fr).valid = false) :
    Inv { u with bufPool := u.bufPool.set fr pg } := by
  obtain ⟨hn0, hlen, hpoolen, hhand, hclean, howned, hrange, hchar, huniq,
    hpn⟩ := hInv
  refine ⟨hn0, hlen, by simpa using hpoolen, hhand, hclean, howned, hrange,
    hchar, huniq, ?_⟩
  intro i hi hv
  have hv2 : (frameAt u i).valid = true := hv
  have hif : i ≠ fr := by
    intro hh
    rw [hh] at hv2
    rw [hinv] at hv2
    exact absurd hv2 (by simp)
  show ((u.bufPool.set fr pg).getD i default).page_number =
    (frameAt u i).pageNo
  rw [getD_set_ne _ _ _ _ _ (fun hh => hif hh.symm)]
  exact hpn i hi hv2

theorem Inv_disposePage (f p : Nat) (s : BufState) (hInv : Inv s) :
    Inv (disposePage f p s).2 := by
  have h1 : Inv { s with accesses := s.accesses + 1 } := Inv_accesses hInv
  cases hlk : htLookup s.hashTable f p with
  | none =>
    rw [disposePage_absent_eq f p s hlk]
    exact h1
  | some fr =>
    rw [disposePage_cached_eq f p s hlk]
    have hl := Inv_lookup hInv hlk
    exact Inv_congr rfl rfl rfl rfl rfl
      (Inv_clearRemove hInv hl.1 hl.2.1 hl.2.2)

theorem Inv_allocPage {laps f : Nat} {s : BufState}
    {o : OpOut (Nat × Nat)} {t : BufState} (hInv : Inv s)
    (h : allocPage laps f s = some (o, t)) : Inv t := by
  have h1 : Inv { s with accesses := s.accesses + 1 } := Inv_accesses hInv
  cases hab : allocBuf laps { s with accesses := s.accesses + 1 } with
  | none =>
    rw [allocPage_none_eq laps f s hab] at h
    exact absurd h (by simp)
  | some r =>
    obtain ⟨res, s1⟩ := r
    cases res with
    | err e =>
      rw [allocPage_err_eq laps f s hab] at h
      simp only [Option.some.injEq, Prod.mk.injEq] at h
      obtain ⟨ho, ht⟩ := h
      subst ht
      exact (Inv_allocBuf_err h1 hab).1
    | ok fr =>
      obtain ⟨hInv1, hfrlt, hinv_v, hfile_v, hpin_v, hpin_s, habs_mono,
        hn1⟩ := Inv_allocBuf_ok h1 hab
      have hfr1 : fr < s1.numBufs := by
        have : s1.numBufs = s.numBufs := hn1
        omega
      have hfrlen : fr < s1.bufPool.length := by
        have : s1.bufPool.length = s1.numBufs := hInv1.2.2.1
        omega
      cases hdup : htLookup s1.hashTable f s1.nextPageId with
      | some j =>
        rw [allocPage_insertFail_eq laps f s hab hfrlen hdup] at h
        simp only [Option.some.injEq, Prod.mk.injEq] at h
        obtain ⟨ho, ht⟩ := h
        subst ht
        exact Inv_congr rfl rfl rfl rfl rfl
          (Inv_set_pool_invalid hInv1 hinv_v)
      | none =>
        rw [allocPage_ok_eq laps f s hab hfrlen hdup] at h
        simp only [Option.some.injEq, Prod.mk.injEq] at h
        obtain ⟨ho, ht⟩ := h
        subst ht
        exact Inv_congr rfl rfl rfl rfl rfl
          (Inv_insertSet hInv1 hfr1 hinv_v hdup rfl)

theorem Inv_step {s t : BufState} (h : Step s t) (hInv : Inv s) :
    Inv t := by
  cases h with
  | read laps f p s o t hr => exact Inv_readPage hInv hr
  | unpin f p d s => exact Inv_unPinPage f p d s hInv
  | flush f s => exact Inv_flushFile f s hInv
  | alloc laps f s o t ha => exact Inv_allocPage hInv ha
  | dispose f p s => exact Inv_disposePage f p s hInv

/-- Every reachable state satisfies the invariant. -/
theorem Inv_reachable {s : BufState} (h : Reachable s) : Inv s := by
  induction h with
  | init n hn => exact Inv_newBufMgr hn
  | step hr hs ih => exact Inv_step hs ih

/-! Behaviour of the flushFile loop: writes, clears and removals. -/

/-- The page store write flushFile issues for frame `j`. -/
def flushWriteOf (f : Nat) (s : BufState) (j : Nat) : Ev :=
  Ev.write f (poolAt s j).page_number (poolAt s j).data

/-- A frame flushFile would write back: owned by the file, valid, dirty
and unpinned. -/
def dirtyOwned (f : Nat) (s : BufState) (j : Nat) : Prop :=
  (frameAt s j).file = some f ∧ (frameAt s j).valid = true ∧
    (frameAt s j).dirty = true ∧ (frameAt s j).pinCnt = 0

theorem owned_valid {s : BufState} (hInv : Inv s) {i f : Nat}
    (hf : (frameAt s i).file = some f) :
    (frameAt s i).valid = true ∧ i < s.numBufs := by
  obtain ⟨hn0, hlen, hpoolen, hhand, hclean, howned, hrange, hchar, huniq,
    hpn⟩ := hInv
  have hlt : i < s.bufDescTable.length := by
    by_contra hc
    rw [frameAt_oob s i (by omega)] at hf
    exact absurd hf (by simp)
  have hin : i < s.numBufs := by omega
  by_cases hv : (frameAt s i).valid = false
  · have hfile := (hclean i hin hv).1
    rw [hfile] at hf
    exact absurd hf (by simp)
  · exact ⟨by simpa using hv, hin⟩

theorem flushEvict_frame_ne {f : Nat} {s : BufState} {i : Nat}
    {d : BufDesc} (k : Nat) (hk : k ≠ i) :
    frameAt (flushEvict f s i d) k = frameAt s k := by
  obtain ⟨e1, e2, e3, e4, e5, e6, e7, e8, e9, e10⟩ := flushEvict_pres f s i d
  rw [frameAt_eq_of_table e3 k,
    getD_set_ne _ _ _ _ _ (fun hh => hk hh.symm)]
  rfl

theorem flushEvict_frame_self {f : Nat} {s : BufState} {i : Nat}
    {d : BufDesc} (hi : i < s.bufDescTable.length) :
    frameAt (flushEvict f s i d) i = BufDesc.Clear d := by
  obtain ⟨e1, e2, e3, e4, e5, e6, e7, e8, e9, e10⟩ := flushEvict_pres f s i d
  rw [frameAt_eq_of_table e3 i]
  exact getD_set_self _ _ _ _ hi

theorem flushEvict_poolAt {f : Nat} {s : BufState} {i : Nat} {d : BufDesc}
    (k : Nat) : poolAt (flushEvict f s i d) k = poolAt s k := by
  obtain ⟨e1, e2, e3, e4, e5, e6, e7, e8, e9, e10⟩ := flushEvict_pres f s i d
  unfold poolAt
  rw [e2]

theorem flushEvict_flushWriteOf {f f2 : Nat} {s : BufState} {i : Nat}
    {d : BufDesc} (k : Nat) :
    flushWriteOf f2 (flushEvict f s i d) k = flushWriteOf f2 s k := by
  unfold flushWriteOf
  rw [flushEvict_poolAt k]

theorem Inv_flushEvict {f : Nat} {s : BufState} {i : Nat} (hInv : Inv s)
    (hf : (frameAt s i).file = some f)
    (hvt : (frameAt s i).valid = true) :
    Inv (flushEvict f s i (frameAt s i)) := by
  have hfr : i < s.numBufs := (owned_valid hInv hf).2
  have hkey : ownerKey (frameAt s i) = (f, (frameAt s i).pageNo) := by
    unfold ownerKey
    rw [hf]
    rfl
  obtain ⟨e1, e2, e3, e4, e5, e6, e7, e8, e9, e10⟩ :=
    flushEvict_pres f s i (frameAt s i)
  refine Inv_congr ?_ ?_ ?_ ?_ ?_ (Inv_clearRemove hInv hfr hvt hkey)
  · exact e1
  · exact e3
  · exact e2
  · exact e8
  · exact e4

theorem flushWriteOf_distinct {s : BufState} (hInv : Inv s) {f i j : Nat}
    (hif : (frameAt s i).file = some f) (hiv : (frameAt s i).valid = true)
    (hjf : (frameAt s j).file = some f) (hjv : (frameAt s j).valid = true)
    (hip : (poolAt s i).page_number = (frameAt s i).pageNo)
    (hjp : (poolAt s j).page_number = (frameAt s j).pageNo)
    (heq : flushWriteOf f s i = flushWriteOf f s j) : i = j := by
  have hiln : i < s.numBufs := (owned_valid hInv hif).2
  have hjln : j < s.numBufs := (owned_valid hInv hjf).2
  obtain ⟨hn0, hlen, hpoolen, hhand, hclean, howned, hrange, hchar, huniq,
    hpn⟩ := hInv
  unfold flushWriteOf at heq
  injection heq with h1 h2 h3
  have hpage : (frameAt s i).pageNo = (frameAt s j).pageNo := by
    rw [← hip, ← hjp, h2]
  have hkey : ownerKey (frameAt s i) = ownerKey (frameAt s j) := by
    unfold ownerKey
    rw [hif, hjf, hpage]
  exact huniq i hiln j hjln hiv hjv hkey

/-- What a successful run of the flushFile loop over frames `i` to
`i + fuel - 1` does: it emits exactly one write (of the current pool
contents) for every dirty frame owned by the file, clears those frames
and removes their index entries, and touches nothing else. -/
theorem flushGo_ok_spec {f : Nat} (fuel : Nat) {s : BufState} {i : Nat}
    (hInv : Inv s) {t : BufState}
    (h : flushGo f s i fuel = (.ok (), t)) :
    ∃ W, t.events = s.events ++ W ∧
      (∀ e, e ∈ W → ∃ j, i ≤ j ∧ j < i + fuel ∧ dirtyOwned f s j ∧
        e = flushWriteOf f s j ∧
        (poolAt s j).page_number = (frameAt s j).pageNo) ∧
      (∀ j, i ≤ j → j < i + fuel → (frameAt s j).file = some f →
        (frameAt s j).dirty = true →
        W.count (flushWriteOf f s j) = 1 ∧
        (frameAt t j).valid = false ∧
        htLookup t.hashTable f (frameAt s j).pageNo = none) ∧
      (∀ k, k < i → frameAt t k = frameAt s k) ∧
      (∀ a b, htLookup s.hashTable a b = none →
        htLookup t.hashTable a b = none) := by
  induction fuel generalizing s i t with
  | zero =>
    simp only [flushGo] at h
    injection h with h1 h2
    subst h2
    refine ⟨[], by simp, ?_, ?_, fun k hk => rfl, fun a b hab => hab⟩
    · intro e he
      exact absurd he (by simp)
    · intro j hij hjw
      omega
  | succ fuel ih =>
    by_cases hf : (frameAt s i).file = some f
    · by_cases hv : (frameAt s i).valid = false
      · rw [flushGo_bad hf hv] at h
        exact absurd h (by simp)
      · have hvt : (frameAt s i).valid = true := by simpa using hv
        have hin : i < s.numBufs := (owned_valid hInv hf).2
        have hilen : i < s.bufDescTable.length := by
          have := hInv.2.1
          omega
        by_cases hp : (frameAt s i).pinCnt > 0
        · rw [flushGo_pinned hf hvt hp] at h
          exact absurd h (by simp)
        · have hp0 : (frameAt s i).pinCnt = 0 := by omega
          by_cases hd : (frameAt s i).dirty = true
          · rw [flushGo_dirty hf hvt hp hd] at h
            have hInv2 := Inv_flushEvict hInv hf hvt
            obtain ⟨W2, hev2, hmemb2, hper2, hbelow2, hmono2⟩ :=
              ih hInv2 h
            obtain ⟨e1, e2, e3, e4, e5, e6, e7, e8, e9, e10⟩ :=
              flushEvict_pres f s i (frameAt s i)
            have hfrne : ∀ k, k ≠ i →
                frameAt (flushEvict f s i (frameAt s i)) k = frameAt s k :=
              fun k hk => flushEvict_frame_ne k hk
            have hpool2 : ∀ k,
                poolAt (flushEvict f s i (frameAt s i)) k = poolAt s k :=
              fun k => flushEvict_poolAt k
            have hpni : (poolAt s i).page_number = (frameAt s i).pageNo :=
              hInv.2.2.2.2.2.2.2.2.2 i hin hvt
            refine ⟨flushWriteOf f s i :: W2, ?_, ?_, ?_, ?_, ?_⟩
            · rw [hev2, e9]
              unfold flushWriteOf
              rw [List.append_assoc]
              rfl
            · intro e he
              rcases List.mem_cons.mp he with rfl | he2
              · exact ⟨i, le_refl i, by omega, ⟨hf, hvt, hd, hp0⟩, rfl,
                  hpni⟩
              · obtain ⟨j, hj1, hj2, hdo, heq, hpj⟩ := hmemb2 e he2
                have hjni : j ≠ i := by omega
                refine ⟨j, by omega, by omega, ?_, ?_, ?_⟩
                · unfold dirtyOwned at hdo ⊢
                  rw [hfrne j hjni] at hdo
                  exact hdo
                · rw [heq, flushEvict_flushWriteOf j]
                · rw [hpool2 j, hfrne j hjni] at hpj
                  exact hpj
            · intro j hij hjw hjf hjd
              by_cases hji : j = i
              · subst hji
                constructor
                · rw [List.count_cons]
                  have hnot : flushWriteOf f s j ∉ W2 := by
                    intro hmem
                    obtain ⟨j2, hj1, hj2, hdo, heq, hpj⟩ :=
                      hmemb2 _ hmem
                    have hj2ni : j2 ≠ j := by omega
                    unfold dirtyOwned at hdo
                    rw [hfrne j2 hj2ni] at hdo
                    rw [hpool2 j2, hfrne j2 hj2ni] at hpj
                    rw [flushEvict_flushWriteOf j2] at heq
                    exact hj2ni (flushWriteOf_distinct hInv hjf hvt
                      hdo.1 hdo.2.1 hpni hpj heq).symm
                  rw [List.count_eq_zero.mpr hnot]
                  simp
                constructor
                · have hbj := hbelow2 j (by omega)
                  rw [hbj, flushEvict_frame_self hilen]
                  rfl
                · apply hmono2
                  rw [e8]
                  exact htLookup_htRemove_self _ _ _
              · have hjge : i + 1 ≤ j := by omega
                have hjf2 : (frameAt (flushEvict f s i
                    (frameAt s i)) j).file = some f := by
                  rw [hfrne j hji]
                  exact hjf
                have hjd2 : (frameAt (flushEvict f s i
                    (frameAt s i)) j).dirty = true := by
                  rw [hfrne j hji]
                  exact hjd
                obtain ⟨hcnt, hval, hht⟩ := hper2 j hjge (by omega)
                  hjf2 hjd2
                rw [flushEvict_flushWriteOf j] at hcnt
                rw [hfrne j hji] at hht
                refine ⟨?_, hval, hht⟩
                rw [List.count_cons, hcnt]
                have hjv : (frameAt s j).valid = true :=
                  (owned_valid hInv hjf).1
                have hpnj : (poolAt s j).page_number =
                    (frameAt s j).pageNo := by
                  have := hInv.2.2.2.2.2.2.2.2.2 j
                    (owned_valid hInv hjf).2 hjv
                  exact this
                have hne : ¬ (flushWriteOf f s j = flushWriteOf f s i) := by
                  intro heq
                  exact hji (flushWriteOf_distinct hInv hjf hjv hf hvt
                    hpnj hpni heq)
                rw [show (flushWriteOf f s i == flushWriteOf f s j) =
                  false from beq_eq_false_iff_ne.mpr
                    (fun hh => hne hh.symm)]
                simp
            · intro k hk
              have := hbelow2 k (by omega)
              rw [this, hfrne k (by omega)]
            · intro a b hab
              apply hmono2
              rw [show (flushEvict f s i (frameAt s i)).hashTable =
                  htRemove s.hashTable f (frameAt s i).pageNo from e8]
              exact htLookup_none_htRemove _ _ _ _ _ hab
          · have hdf : (frameAt s i).dirty = false := by simpa using hd
            rw [flushGo_clean hf hvt hp hdf] at h
            obtain ⟨W2, hev2, hmemb2, hper2, hbelow2, hmono2⟩ :=
              ih hInv h
            refine ⟨W2, hev2, ?_, ?_, fun k hk => hbelow2 k (by omega),
              hmono2⟩
            · intro e he
              obtain ⟨j, hj1, hj2, hdo, heq, hpj⟩ := hmemb2 e he
              exact ⟨j, by omega, by omega, hdo, heq, hpj⟩
            · intro j hij hjw hjf hjd
              by_cases hji : j = i
              · subst hji
                rw [hjd] at hdf
                exact absurd hdf (by simp)
              · exact hper2 j (by omega) (by omega) hjf hjd
    · rw [flushGo_skip hf] at h
      obtain ⟨W2, hev2, hmemb2, hper2, hbelow2, hmono2⟩ := ih hInv h
      refine ⟨W2, hev2, ?_, ?_, fun k hk => hbelow2 k (by omega), hmono2⟩
      · intro e he
        obtain ⟨j, hj1, hj2, hdo, heq, hpj⟩ := hmemb2 e he
        exact ⟨j, by omega, by omega, hdo, heq, hpj⟩
      · intro j hij hjw hjf hjd
        by_cases hji : j = i
        · subst hji
          exact absurd hjf hf
        · exact hper2 j (by omega) (by omega) hjf hjd

/-- What the flushFile loop does when frame `j` is the first frame in its
window owned by the file with a positive pin count: it stops right there
with PagePinnedException, and the dirty owned frames strictly before `j`
have already been written back, cleared and deregistered. -/
theorem flushGo_pinned_spec {f : Nat} (fuel : Nat) {s : BufState}
    {i j : Nat} (hInv : Inv s) (hij : i ≤ j) (hjw : j < i + fuel)
    (hjf : (frameAt s j).file = some f) (hjp : (frameAt s j).pinCnt > 0)
    (hmin : ∀ k, i ≤ k → k < j →
      ¬((frameAt s k).file = some f ∧ (frameAt s k).pinCnt > 0)) :
    (flushGo f s i fuel).1 =
      .err (.pagePinned f (frameAt s j).pageNo j) ∧
    ∃ W, (flushGo f s i fuel).2.events = s.events ++ W ∧
      (∀ e, e ∈ W → ∃ k, i ≤ k ∧ k < j ∧ dirtyOwned f s k ∧
        e = flushWriteOf f s k) ∧
      (∀ k, i ≤ k → k < j → (frameAt s k).file = some f →
        (frameAt s k).dirty = true →
        flushWriteOf f s k ∈ W ∧
        (frameAt (flushGo f s i fuel).2 k).valid = false ∧
        htLookup (flushGo f s i fuel).2.hashTable f
          (frameAt s k).pageNo = none) ∧
      (∀ k, k < i → frameAt (flushGo f s i fuel).2 k = frameAt s k) ∧
      (∀ a b, htLookup s.hashTable a b = none →
        htLookup (flushGo f s i fuel).2.hashTable a b = none) := by
  induction fuel generalizing s i with
  | zero => omega
  | succ fuel ih =>
    by_cases hji : i = j
    · have hjv : (frameAt s j).valid = true := (owned_valid hInv hjf).1
      rw [← hji] at hjf hjp hjv
      rw [flushGo_pinned hjf hjv hjp, hji]
      refine ⟨rfl, [], by simp, ?_, ?_, fun k hk => rfl,
        fun a b hab => hab⟩
      · intro e he
        exact absurd he (by simp)
      · intro k hik hkj
        omega
    · have hilt : i < j := by omega
      by_cases hf : (frameAt s i).file = some f
      · have hvt : (frameAt s i).valid = true := (owned_valid hInv hf).1
        have hin : i < s.numBufs := (owned_valid hInv hf).2
        have hilen : i < s.bufDescTable.length := by
          have := hInv.2.1
          omega
        have hp0 : (frameAt s i).pinCnt = 0 := by
          have := hmin i (le_refl i) hilt
          by_contra hc
          exact this ⟨hf, by omega⟩
        have hnp : ¬ (frameAt s i).pinCnt > 0 := by omega
        by_cases hd : (frameAt s i).dirty = true
        · rw [flushGo_dirty hf hvt hnp hd]
          have hInv2 := Inv_flushEvict hInv hf hvt
          have hfrne : ∀ k, k ≠ i →
              frameAt (flushEvict f s i (frameAt s i)) k = frameAt s k :=
            fun k hk => flushEvict_frame_ne k hk
          obtain ⟨e1, e2, e3, e4, e5, e6, e7, e8, e9, e10⟩ :=
            flushEvict_pres f s i (frameAt s i)
          have hjf2 : (frameAt (flushEvict f s i
              (frameAt s i)) j).file = some f := by
            rw [hfrne j (by omega)]
            exact hjf
          have hjp2 : (frameAt (flushEvict f s i
              (frameAt s i)) j).pinCnt > 0 := by
            rw [hfrne j (by omega)]
            exact hjp
          have hmin2 : ∀ k, i + 1 ≤ k → k < j →
              ¬((frameAt (flushEvict f s i (frameAt s i)) k).file =
                  some f ∧
                (frameAt (flushEvict f s i (frameAt s i)) k).pinCnt >
                  0) := by
            intro k hk1 hk2
            rw [hfrne k (by omega)]
            exact hmin k (by omega) hk2
          obtain ⟨hres, W2, hev2, hmemb2, hper2, hbelow2, hmono2⟩ :=
            ih hInv2 (by omega) (by omega) hjf2 hjp2 hmin2
          rw [hfrne j (by omega)] at hres
          refine ⟨hres, flushWriteOf f s i :: W2, ?_, ?_, ?_, ?_, ?_⟩
          · rw [hev2, e9]
            unfold flushWriteOf
            rw [List.append_assoc]
            rfl
          · intro e he
            rcases List.mem_cons.mp he with rfl | he2
            · exact ⟨i, le_refl i, hilt, ⟨hf, hvt, hd, hp0⟩, rfl⟩
            · obtain ⟨k, hk1, hk2, hdo, heq⟩ := hmemb2 e he2
              have hkni : k ≠ i := by omega
              refine ⟨k, by omega, hk2, ?_, ?_⟩
              · unfold dirtyOwned at hdo ⊢
                rw [hfrne k hkni] at hdo
                exact hdo
              · rw [heq, flushEvict_flushWriteOf k]
          · intro k hik hkj hkf hkd
            by_cases hki : k = i
            · have hki2 : k < i + 1 := by omega
              refine ⟨?_, ?_, ?_⟩
              · rw [hki]
                exact List.mem_cons_self _ _
              · rw [hbelow2 k hki2, hki, flushEvict_frame_self hilen]
                rfl
              · apply hmono2
                rw [e8, hki]
                exact htLookup_htRemove_self _ _ _
            · have hkge : i + 1 ≤ k := by omega
              have hkf2 : (frameAt (flushEvict f s i
                  (frameAt s i)) k).file = some f := by
                rw [hfrne k hki]
                exact hkf
              have hkd2 : (frameAt (flushEvict f s i
                  (frameAt s i)) k).dirty = true := by
                rw [hfrne k hki]
                exact hkd
              obtain ⟨hmem, hval, hht⟩ := hper2 k hkge hkj hkf2 hkd2
              rw [flushEvict_flushWriteOf k] at hmem
              rw [hfrne k hki] at hht
              exact ⟨List.mem_cons_of_mem _ hmem, hval, hht⟩
          · intro k hk
            rw [hbelow2 k (by omega), hfrne k (by omega)]
          · intro a b hab
            apply hmono2
            rw [e8]
            exact htLookup_none_htRemove _ _ _ _ _ hab
        · have hdf : (frameAt s i).dirty = false := by simpa using hd
          rw [flushGo_clean hf hvt hnp hdf]
          have hminb : ∀ k, i + 1 ≤ k → k < j →
              ¬((frameAt s k).file = some f ∧
                (frameAt s k).pinCnt > 0) := by
            intro k hk1 hk2
            exact hmin k (by omega) hk2
          obtain ⟨hres, W2, hev2, hmemb2, hper2, hbelow2, hmono2⟩ :=
            ih hInv (by omega) (by omega) hjf hjp hminb
          refine ⟨hres, W2, hev2, ?_, ?_,
            fun k hk => hbelow2 k (by omega), hmono2⟩
          · intro e he
            obtain ⟨k, hk1, hk2, hdo, heq⟩ := hmemb2 e he
            exact ⟨k, by omega, hk2, hdo, heq⟩
          · intro k hik hkj hkf hkd
            by_cases hki : k = i
            · rw [hki] at hkd
              rw [hkd] at hdf
              exact absurd hdf (by simp)
            · have hkge : i + 1 ≤ k := by omega
              exact hper2 k hkge hkj hkf hkd
      · rw [flushGo_skip hf]
        have hminb : ∀ k, i + 1 ≤ k → k < j →
            ¬((frameAt s k).file = some f ∧
              (frameAt s k).pinCnt > 0) := by
          intro k hk1 hk2
          exact hmin k (by omega) hk2
        obtain ⟨hres, W2, hev2, hmemb2, hper2, hbelow2, hmono2⟩ :=
          ih hInv (by omega) (by omega) hjf hjp hminb
        refine ⟨hres, W2, hev2, ?_, ?_,
          fun k hk => hbelow2 k (by omega), hmono2⟩
        · intro e he
          obtain ⟨k, hk1, hk2, hdo, heq⟩ := hmemb2 e he
          exact ⟨k, by omega, hk2, hdo, heq⟩
        · intro k hik hkj hkf hkd
          by_cases hki : k = i
          · rw [hki] at hkf
            exact absurd hkf hf
          · have hkge : i + 1 ≤ k := by omega
            exact hper2 k hkge hkj hkf hkd

/-! The claims. -/

/-- C1 (pin safety): in every reachable state, whenever allocBuf selects a
victim frame, that frame had pin count zero; every pinned frame is merely
skipped by the sweep: it is not the returned frame, and its validity,
dirty flag, pin count and owner are untouched (only the refbit may have
been cleared). -/
theorem claim1_pin_safety {s : BufState} (hs : Reachable s)
    {laps v : Nat} {t : BufState}
    (h : allocBuf laps s = some (.ok v, t)) :
    v < s.numBufs ∧ (frameAt s v).pinCnt = 0 ∧
    (∀ i, i < s.numBufs → (frameAt s i).pinCnt ≠ 0 → i ≠ v ∧
      (frameAt t i).valid = (frameAt s i).valid ∧
      (frameAt t i).dirty = (frameAt s i).dirty ∧
      (frameAt t i).pinCnt = (frameAt s i).pinCnt ∧
      (frameAt t i).file = (frameAt s i).file ∧
      (frameAt t i).pageNo = (frameAt s i).pageNo) := by
  have hInv := Inv_reachable hs
  obtain ⟨hInvT, hvlt, hval_t, hfile_t, hpin_t, hpin0, hmono, hn⟩ :=
    Inv_allocBuf_ok hInv h
  refine ⟨hvlt, hpin0, ?_⟩
  intro i hi hpin
  have hiv : i ≠ v := by
    intro hh
    rw [hh] at hpin
    exact hpin hpin0
  have hfp : FoundPres (advanceClock s) v t := loop_ok_pres h
  have hfields := presFrame_fields (hfp.hframes i hiv)
  exact ⟨hiv, hfields.2.2.2.1, hfields.2.2.2.2.1, hfields.2.2.2.2.2,
    hfields.2.1, hfields.2.2.1⟩

def wAfter1 : BufState :=
  match allocBuf 2 (newBufMgr 1) with
  | some (_, t) => t
  | none => default

theorem claim1_pin_safety_witness :
    0 < (newBufMgr 1).numBufs ∧ (frameAt (newBufMgr 1) 0).pinCnt = 0 := by
  have h := claim1_pin_safety (Reachable.init 1 (by decide))
    (show allocBuf 2 (newBufMgr 1) = some (.ok 0, wAfter1) from by decide)
  exact ⟨h.1, h.2.1⟩

/-- C2 (index consistency): in every reachable state and for every frame,
the frame is valid exactly when the index holds exactly one entry mapping
to it, and that entry's key is the frame's owner (file, pageNo); an
invalid frame has no index entry at all. -/
theorem claim2_index_consistency {s : BufState} (hs : Reachable s) :
    ∀ i, i < s.numBufs →
      ((frameAt s i).valid = true ↔
        s.hashTable.filter (fun e => e.2 == i) =
          [(((frameAt s i).file.getD 0, (frameAt s i).pageNo), i)]) ∧
      ((frameAt s i).valid = false →
        s.hashTable.filter (fun e => e.2 == i) = []) := by
  have hInv := Inv_reachable hs
  obtain ⟨hn0, hlen, hpoolen, hhand, hclean, howned, hrange, hchar, huniq,
    hpn⟩ := hInv
  intro i hi
  have hc := hchar i hi
  constructor
  · constructor
    · intro hv
      rw [hc]
      unfold ownerEntry
      rw [if_pos hv]
      rfl
    · intro hfilt
      by_contra hv
      have hvf : (frameAt s i).valid = false := by simpa using hv
      rw [hc] at hfilt
      unfold ownerEntry at hfilt
      rw [if_neg (by rw [hvf]; simp)] at hfilt
      exact absurd hfilt (by simp)
  · intro hv
    rw [hc]
    unfold ownerEntry
    rw [if_neg (by rw [hv]; simp)]

theorem claim2_index_consistency_witness :
    (newBufMgr 2).hashTable.filter (fun e => e.2 == 0) = [] :=
  (claim2_index_consistency (Reachable.init 2 (by decide)) 0
    (by decide)).2 (by decide)

/-- C3 (bounded termination of allocBuf): on every state, the sweep with a
budget of two laps already returns a result, any larger lap budget returns
the same result (so the unbounded goto-retry of the source terminates
within two laps), and it throws BufferExceededException exactly when some
full lap tallied all numBufs frames as encountered-while-pinned. -/
theorem claim3_allocBuf_bounded (s : BufState) :
    (∃ r, allocBuf 2 s = some r) ∧
    (∀ laps, 2 ≤ laps → allocBuf laps s = allocBuf 2 s) ∧
    (∀ e t, allocBuf 2 s = some (.err e, t) →
      e = .bufferExceeded ∧
      ∃ u, (u = advanceClock s ∨
          (∃ p2, allocBufLap (advanceClock s) 0 s.numBufs = .cont p2 u ∧
            p2 ≠ s.numBufs)) ∧
        allocBufLap u 0 s.numBufs = .cont s.numBufs t) ∧
    (∀ p2 t, allocBufLap (advanceClock s) 0 s.numBufs = .cont p2 t →
      p2 = s.numBufs → allocBuf 2 s = some (.err .bufferExceeded, t)) := by
  refine ⟨(allocBuf_stable s 2 (le_refl 2)).2,
    fun laps hl => (allocBuf_stable s laps hl).1, ?_, ?_⟩
  · intro e t herr
    obtain ⟨he, hep⟩ := loop_err_pres herr
    refine ⟨he, ?_⟩
    unfold allocBuf at herr
    cases hl : allocBufLap (advanceClock s) 0 s.numBufs with
    | found v u =>
      rw [allocBufLoop_found 1 hl] at herr
      exact absurd herr (by simp)
    | cont p u =>
      have hun : u.numBufs = s.numBufs := (lap_cont_pres hl).hn
      by_cases hp : p = u.numBufs
      · rw [allocBufLoop_cont_full 1 hl hp] at herr
        simp only [Option.some.injEq, Prod.mk.injEq,
          OpOut.err.injEq] at herr
        obtain ⟨he2, ht⟩ := herr
        subst ht
        have hps : p = s.numBufs := by omega
        rw [hps] at hl
        exact ⟨advanceClock s, Or.inl rfl, hl⟩
      · rw [allocBufLoop_cont_retry 1 hl hp] at herr
        have hpns : p ≠ s.numBufs := by omega
        cases hl2 : allocBufLap u 0 s.numBufs with
        | found v2 w =>
          have hl2b := hl2
          rw [← hun] at hl2b
          rw [allocBufLoop_found 0 hl2b] at herr
          exact absurd herr (by simp)
        | cont p2 w =>
          have hl2b := hl2
          rw [← hun] at hl2b
          have hwn : w.numBufs = u.numBufs := (lap_cont_pres hl2b).hn
          by_cases hp2 : p2 = w.numBufs
          · rw [allocBufLoop_cont_full 0 hl2b hp2] at herr
            simp only [Option.some.injEq, Prod.mk.injEq,
              OpOut.err.injEq] at herr
            obtain ⟨he2, ht⟩ := herr
            subst ht
            have hp2s : p2 = s.numBufs := by omega
            rw [hp2s] at hl2
            exact ⟨u, Or.inr ⟨p, rfl, hpns⟩, hl2⟩
          · rw [allocBufLoop_cont_retry 0 hl2b hp2] at herr
            exact absurd herr (by simp [allocBufLoop])
  · intro p2 t hlap hp2
    have htn : t.numBufs = s.numBufs := (lap_cont_pres hlap).hn
    have ht : p2 = t.numBufs := by omega
    exact allocBufLoop_cont_full 1 hlap ht

/-- C4 (dirty durability): a successful allocBuf performs at most one page
store write; if the victim held a valid dirty page, exactly one write of
that page's current in-memory contents is issued and the old index entry
is removed before the frame is handed out (the victim comes back
invalid); a successful flushFile writes each dirty owned frame exactly
once with its current in-memory contents, clears it and removes its index
entry, and writes nothing else. -/
theorem claim4_dirty_durability :
    (∀ laps : Nat, ∀ s : BufState, ∀ v : Nat, ∀ t : BufState, Inv s →
      allocBuf laps s = some (.ok v, t) →
      ∃ W, t.events = s.events ++ W ∧ W.length ≤ 1 ∧
        ((frameAt s v).valid = true → (frameAt s v).dirty = true →
          W = [Ev.write ((frameAt s v).file.getD 0)
            (poolAt s v).page_number (poolAt s v).data] ∧
          (poolAt s v).page_number = (frameAt s v).pageNo) ∧
        ((frameAt s v).valid = true →
          htLookup t.hashTable ((frameAt s v).file.getD 0)
            (frameAt s v).pageNo = none ∧
          (frameAt t v).valid = false) ∧
        ((frameAt s v).dirty = false → W = []) ∧
        ((frameAt s v).valid = false → W = [])) ∧
    (∀ f : Nat, ∀ s : BufState, ∀ t : BufState, Inv s →
      flushFile f s = (.ok (), t) →
      ∃ W, t.events = s.events ++ W ∧
        (∀ j, j < s.numBufs → (frameAt s j).file = some f →
          (frameAt s j).dirty = true →
          W.count (flushWriteOf f s j) = 1 ∧
          (frameAt t j).valid = false ∧
          htLookup t.hashTable f (frameAt s j).pageNo = none) ∧
        (∀ e, e ∈ W → ∃ j, j < s.numBufs ∧ dirtyOwned f s j ∧
          e = flushWriteOf f s j ∧
          (poolAt s j).page_number = (frameAt s j).pageNo)) := by
  constructor
  · intro laps s v t hInv h
    have hfp : FoundPres (advanceClock s) v t := loop_ok_pres h
    have hvlt : v < s.numBufs :=
      hfp.hv (Nat.mod_lt _ hInv.1)
    rcases hfp.hvict with ⟨c1, c2, c3, c4, c5, c6⟩ |
        ⟨c1, c2, c3, c4, c5, c6, c7⟩
    · have c1s : (frameAt s v).valid = false := c1
      refine ⟨[], by rw [show t.events = s.events from c3]; simp,
        by simp, ?_, ?_, fun _ => rfl, fun _ => rfl⟩
      · intro hv _
        rw [hv] at c1s
        exact absurd c1s (by simp)
      · intro hv
        rw [hv] at c1s
        exact absurd c1s (by simp)
    · have c1s : (frameAt s v).valid = true := c1
      have hpn : (poolAt s v).page_number = (frameAt s v).pageNo :=
        hInv.2.2.2.2.2.2.2.2.2 v hvlt c1s
      have hht : htLookup t.hashTable ((frameAt s v).file.getD 0)
          (frameAt s v).pageNo = none := by
        rw [show t.hashTable = htRemove s.hashTable
            ((frameAt s v).file.getD 0) (frameAt s v).pageNo from c4]
        exact htLookup_htRemove_self _ _ _
      have hvalt : (frameAt t v).valid = false := by
        rw [show frameAt t v = BufDesc.Clear (frameAt s v) from c5]
        rfl
      by_cases hd : (frameAt s v).dirty = true
      · obtain ⟨hev, hwr⟩ := c6 hd
        refine ⟨[Ev.write ((frameAt s v).file.getD 0)
            (poolAt s v).page_number (poolAt s v).data],
          hev, by simp, fun _ _ => ⟨rfl, hpn⟩, fun _ => ⟨hht, hvalt⟩,
          ?_, ?_⟩
        · intro hdf
          rw [hdf] at hd
          exact absurd hd (by simp)
        · intro hvf
          rw [hvf] at c1s
          exact absurd c1s (by simp)
      · have hdf : (frameAt s v).dirty = false := by simpa using hd
        obtain ⟨hev, hdisk, hwr⟩ := c7 hdf
        refine ⟨[], by rw [show t.events = s.events from hev]; simp,
          by simp, ?_, fun _ => ⟨hht, hvalt⟩, fun _ => rfl,
          fun _ => rfl⟩
        intro _ hdt
        rw [hdt] at hdf
        exact absurd hdf (by simp)
  · intro f s t hInv h
    have hInv1 : Inv { s with accesses := s.accesses + 1 } :=
      Inv_accesses hInv
    obtain ⟨W, hev, hmemb, hper, hbelow, hmono⟩ :=
      flushGo_ok_spec ({ s with accesses := s.accesses + 1 } :
        BufState).numBufs hInv1 h
    refine ⟨W, hev, ?_, ?_⟩
    · intro j hj hjf hjd
      exact hper j (Nat.zero_le j) (by simpa using hj) hjf hjd
    · intro e he
      obtain ⟨j, hj0, hjw, hdo, heq, hpj⟩ := hmemb e he
      exact ⟨j, by simpa using hjw, hdo, heq, hpj⟩

/-- A one-frame pool holding a valid dirty unpinned page of file 7. -/
def sDirty : BufState :=
  { numBufs := 1,
    bufDescTable := [⟨0, some 7, 42, true, false, true, 0⟩],
    bufPool := [⟨42, 9⟩],
    hashTable := [((7, 42), 0)],
    clockHand := 0, disk := [], nextPageId := 0, events := [],
    accesses := 0, diskreads := 0, diskwrites := 0 }

theorem Inv_sDirty : Inv sDirty := by
  refine ⟨by decide, by decide, by decide, by decide, by decide, by decide,
    by decide, by decide, ?_, by decide⟩
  intro i hi j hj _ _ _
  have h1 : i < 1 := hi
  have h2 : j < 1 := hj
  omega

def wAfter4 : BufState :=
  match allocBuf 2 sDirty with
  | some (_, t) => t
  | none => sDirty

theorem claim4_dirty_durability_witness :
    wAfter4.events = sDirty.events ++ [Ev.write 7 42 9] := by
  obtain ⟨W, hW, hlen, hdirty, hht, hclean, hinvalid⟩ :=
    claim4_dirty_durability.1 2 sDirty 0 wAfter4 Inv_sDirty (by decide)
  have hd := hdirty (by decide) (by decide)
  rw [hd.1] at hW
  exact hW

/-- A one-frame pool whose only page is pinned: allocBuf must throw. -/
def sPinned : BufState :=
  { numBufs := 1,
    bufDescTable := [⟨0, some 7, 42, true, false, false, 1⟩],
    bufPool := [⟨42, 0⟩],
    hashTable := [((7, 42), 0)],
    clockHand := 0, disk := [], nextPageId := 0, events := [],
    accesses := 0, diskreads := 0, diskwrites := 0 }

/-- C5: the code swallows pool exhaustion in readPage.  On a fully pinned
pool, readPage of an uncached page catches BufferExceededException and
returns normally with a NULL page (modelled as `.ok none`) instead of
propagating an error; the frame table and the index are left unchanged. -/
theorem claim5_exhaustion_swallowed :
    readPage 2 9 5 sPinned =
      some (.ok none, { sPinned with accesses := 1 }) ∧
    ({ sPinned with accesses := 1 } : BufState).hashTable =
      sPinned.hashTable ∧
    ({ sPinned with accesses := 1 } : BufState).bufDescTable =
      sPinned.bufDescTable :=
  ⟨by decide, rfl, rfl⟩

/-- C6 (flushFile abort semantics): on an invariant state, if frame `j` is
the first frame owned by file `f` with a positive pin count, flushFile
fails with PagePinnedException naming exactly that page and frame, and the
dirty owned frames before `j` have already been flushed: their writes were
issued, their frames cleared and their index entries removed. -/
theorem claim6_flushFile_abort {f : Nat} {s : BufState} (hInv : Inv s)
    {j : Nat} (hjn : j < s.numBufs)
    (hjf : (frameAt s j).file = some f)
    (hjp : (frameAt s j).pinCnt > 0)
    (hmin : ∀ k, k < j →
      ¬((frameAt s k).file = some f ∧ (frameAt s k).pinCnt > 0)) :
    (flushFile f s).1 = .err (.pagePinned f (frameAt s j).pageNo j) ∧
    ∃ W, (flushFile f s).2.events = s.events ++ W ∧
      (∀ e, e ∈ W → ∃ k, k < j ∧ dirtyOwned f s k ∧
        e = flushWriteOf f s k) ∧
      (∀ k, k < j → (frameAt s k).file = some f →
        (frameAt s k).dirty = true →
        flushWriteOf f s k ∈ W ∧
        (frameAt (flushFile f s).2 k).valid = false ∧
        htLookup (flushFile f s).2.hashTable f (frameAt s k).pageNo =
          none) := by
  have hInv1 : Inv { s with accesses := s.accesses + 1 } :=
    Inv_accesses hInv
  have hjw : j < 0 + ({ s with accesses := s.accesses + 1 } :
      BufState).numBufs := by
    simpa using hjn
  obtain ⟨hres, W, hev, hmemb, hper, hbelow, hmono⟩ :=
    flushGo_pinned_spec ({ s with accesses := s.accesses + 1 } :
      BufState).numBufs hInv1 (Nat.zero_le j) hjw hjf hjp
      (fun k hk0 hkj => hmin k hkj)
  refine ⟨hres, W, hev, ?_, ?_⟩
  · intro e he
    obtain ⟨k, hk0, hkj, hdo, heq⟩ := hmemb e he
    exact ⟨k, hkj, hdo, heq⟩
  · intro k hkj hkf hkd
    exact hper k (Nat.zero_le k) hkj hkf hkd

/-- A two-frame pool of file 7: frame 0 dirty and unpinned, frame 1
pinned twice. -/
def sFlush : BufState :=
  { numBufs := 2,
    bufDescTable := [⟨0, some 7, 10, true, false, true, 0⟩,
                     ⟨1, some 7, 11, true, false, false, 2⟩],
    bufPool := [⟨10, 3⟩, ⟨11, 4⟩],
    hashTable := [((7, 10), 0), ((7, 11), 1)],
    clockHand := 0, disk := [], nextPageId := 0, events := [],
    accesses := 0, diskreads := 0, diskwrites := 0 }

theorem Inv_sFlush : Inv sFlush := by
  refine ⟨by decide, by decide, by decide, by decide, by decide, by decide,
    by decide, by decide, ?_, by decide⟩
  intro i hi j hj hvi hvj hk
  have h1 : i < 2 := hi
  have h2 : j < 2 := hj
  interval_cases i <;> interval_cases j <;>
    first | rfl | exact absurd hk (by decide)

theorem claim6_flushFile_abort_witness :
    (flushFile 7 sFlush).1 = .err (.pagePinned 7 11 1) :=
  (@claim6_flushFile_abort 7 sFlush Inv_sFlush 1 (by decide)
    (by decide) (by decide) (by decide)).1

/-- C7 (unpinPage contract): an absent key is a no-op (only the accesses
counter moves) and raises no error; a cached key with pin count zero fails
with PageNotPinnedException and changes nothing else; otherwise the pin
count drops by exactly one, the dirty flag becomes `d || dirty` (set when
`d`, never cleared), the owner, page number and valid flag are untouched,
the index is unchanged and no other frame changes. -/
theorem claim7_unpin_contract (f p : Nat) (d : Bool) (s : BufState) :
    (htLookup s.hashTable f p = none →
      unPinPage f p d s =
        (.ok (), { s with accesses := s.accesses + 1 })) ∧
    (∀ fr, htLookup s.hashTable f p = some fr →
      (frameAt s fr).pinCnt = 0 →
      unPinPage f p d s = (.err (.pageNotPinned f p fr),
        { s with accesses := s.accesses + 1 })) ∧
    (∀ fr, htLookup s.hashTable f p = some fr →
      (frameAt s fr).pinCnt ≠ 0 →
      (unPinPage f p d s).1 = .ok () ∧
      (frameAt (unPinPage f p d s).2 fr).pinCnt =
        (frameAt s fr).pinCnt - 1 ∧
      (frameAt (unPinPage f p d s).2 fr).dirty =
        (d || (frameAt s fr).dirty) ∧
      (frameAt (unPinPage f p d s).2 fr).file = (frameAt s fr).file ∧
      (frameAt (unPinPage f p d s).2 fr).pageNo =
        (frameAt s fr).pageNo ∧
      (frameAt (unPinPage f p d s).2 fr).valid = (frameAt s fr).valid ∧
      (unPinPage f p d s).2.hashTable = s.hashTable ∧
      (∀ k, k ≠ fr →
        frameAt (unPinPage f p d s).2 k = frameAt s k)) := by
  refine ⟨fun hlk => unPinPage_absent_eq f p d s hlk,
    fun fr hlk hz => unPinPage_zero_eq f p d s hlk hz, ?_⟩
  intro fr hlk hpin
  have hlt : fr < s.bufDescTable.length := by
    by_contra hc
    rw [frameAt_oob s fr (by omega)] at hpin
    exact hpin rfl
  have heq := unPinPage_dec_eq f p d s hlk hpin
  have hself : frameAt (unPinPage f p d s).2 fr =
      (if d then { frameAt s fr with
          pinCnt := (frameAt s fr).pinCnt - 1, dirty := true }
        else { frameAt s fr with
          pinCnt := (frameAt s fr).pinCnt - 1 }) := by
    rw [heq]
    exact frameAt_setFrame_self { s with accesses := s.accesses + 1 }
      fr _ hlt
  refine ⟨by rw [heq], ?_, ?_, ?_, ?_, ?_, by rw [heq]; try rfl, ?_⟩
  · rw [hself]
    cases d <;> rfl
  · rw [hself]
    cases d <;> rfl
  · rw [hself]
    cases d <;> rfl
  · rw [hself]
    cases d <;> rfl
  · rw [hself]
    cases d <;> rfl
  · intro k hk
    rw [heq]
    exact frameAt_setFrame_ne { s with accesses := s.accesses + 1 }
      fr k _ (Ne.symm hk)

theorem claim7_unpin_contract_witness :
    (unPinPage 7 42 true sPinned).1 = .ok () ∧
    (frameAt (unPinPage 7 42 true sPinned).2 0).pinCnt =
      (frameAt sPinned 0).pinCnt - 1 ∧
    (frameAt (unPinPage 7 42 true sPinned).2 0).dirty =
      (true || (frameAt sPinned 0).dirty) ∧
    (frameAt (unPinPage 7 42 true sPinned).2 0).file =
      (frameAt sPinned 0).file ∧
    (frameAt (unPinPage 7 42 true sPinned).2 0).pageNo =
      (frameAt sPinned 0).pageNo ∧
    (frameAt (unPinPage 7 42 true sPinned).2 0).valid =
      (frameAt sPinned 0).valid ∧
    (unPinPage 7 42 true sPinned).2.hashTable = sPinned.hashTable ∧
    (∀ k, k ≠ 0 →
      frameAt (unPinPage 7 42 true sPinned).2 k = frameAt sPinned k) :=
  (claim7_unpin_contract 7 42 true sPinned).2.2 0 (by decide) (by decide)

/-- C8: the code skips the page-store deletion for an uncached page.  When
(f, p) is not in the index, disposePage returns at once (buffer.cpp lines
264 to 266): only the accesses counter moves and, in particular, the event
log is unchanged, so no deletePage call reaches the page store — the spec
says the deletePage call should still happen. -/
theorem claim8_dispose_uncached_skips_delete (f p : Nat) (s : BufState)
    (hlk : htLookup s.hashTable f p = none) :
    disposePage f p s = (.ok (), { s with accesses := s.accesses + 1 }) ∧
    (disposePage f p s).2.events = s.events := by
  have h := disposePage_absent_eq f p s hlk
  exact ⟨h, by rw [h]⟩

theorem claim8_dispose_uncached_skips_delete_witness :
    disposePage 7 99 sDirty =
      (.ok (), { sDirty with accesses := sDirty.accesses + 1 }) ∧
    (disposePage 7 99 sDirty).2.events = sDirty.events :=
  claim8_dispose_uncached_skips_delete 7 99 sDirty (by decide)

/-- C9 counterexample: the claim says allocPage first asks the page store
to allocate the new page and then acquires a frame.  Starting from a clean
log at `sDirty` (a one-frame pool holding a dirty victim), the run of
allocPage emits the frame-acquisition write-back BEFORE the page-store
allocatePage call: the log is [write, alloc], not alloc-first — in the
code allocBuf runs before file->allocatePage() (buffer.cpp lines 242 and
243). -/
theorem claim9_alloc_order_counterexample :
    (allocPage 2 8 sDirty).map (fun r => r.2.events) =
      some [Ev.write 7 42 9, Ev.alloc 8] ∧
    [Ev.write 7 42 9, Ev.alloc 8].head? ≠ some (Ev.alloc 8) := by
  exact ⟨by decide, by decide⟩

/-- C9 amended: allocPage first acquires a frame through the replacement
engine (allocBuf, possibly evicting), and only then asks the page store to
allocate the new page — the Ev.alloc call lands after allocBuf's events —
then inserts the index entry and Sets the frame, returning the new page
identifier and a pinned handle with pin count 1. -/
theorem claim9_allocPage_amended (laps f : Nat) {s : BufState}
    (hInv : Inv s) {fr : Nat} {s1 : BufState}
    (hab : allocBuf laps { s with accesses := s.accesses + 1 } =
      some (.ok fr, s1))
    (habs : htLookup s1.hashTable f s1.nextPageId = none) :
    ∃ t, allocPage laps f s = some (.ok (s1.nextPageId, fr), t) ∧
      t.events = s1.events ++ [Ev.alloc f] ∧
      htLookup t.hashTable f s1.nextPageId = some fr ∧
      (frameAt t fr).valid = true ∧
      (frameAt t fr).pinCnt = 1 ∧
      (frameAt t fr).refbit = true ∧
      (frameAt t fr).dirty = false ∧
      (frameAt t fr).file = some f ∧
      (frameAt t fr).pageNo = s1.nextPageId ∧
      (poolAt t fr).page_number = s1.nextPageId := by
  obtain ⟨hInv1, hvlt, _, _, _, _, _, hnn⟩ :=
    Inv_allocBuf_ok (Inv_accesses hInv) hab
  have hvlt2 : fr < s1.numBufs := by
    rw [show s1.numBufs =
      ({ s with accesses := s.accesses + 1 } : BufState).numBufs from hnn]
    exact hvlt
  have hfrlen : fr < s1.bufPool.length := by
    have := hInv1.2.2.1
    omega
  have hfrlen2 : fr < s1.bufDescTable.length := by
    have := hInv1.2.1
    omega
  have heq := allocPage_ok_eq laps f s hab hfrlen habs
  have hfrm : frameAt
      { s1 with
        bufDescTable := s1.bufDescTable.set fr
          (BufDesc.Set (frameAt s1 fr) f s1.nextPageId),
        bufPool := s1.bufPool.set fr ⟨s1.nextPageId, 0⟩,
        hashTable := ((f, s1.nextPageId), fr) :: s1.hashTable,
        disk := ((f, s1.nextPageId), 0) :: s1.disk,
        nextPageId := s1.nextPageId + 1,
        events := s1.events ++ [Ev.alloc f] } fr =
      BufDesc.Set (frameAt s1 fr) f s1.nextPageId :=
    getD_set_self _ _ _ _ hfrlen2
  have hpl : poolAt
      { s1 with
        bufDescTable := s1.bufDescTable.set fr
          (BufDesc.Set (frameAt s1 fr) f s1.nextPageId),
        bufPool := s1.bufPool.set fr ⟨s1.nextPageId, 0⟩,
        hashTable := ((f, s1.nextPageId), fr) :: s1.hashTable,
        disk := ((f, s1.nextPageId), 0) :: s1.disk,
        nextPageId := s1.nextPageId + 1,
        events := s1.events ++ [Ev.alloc f] } fr =
      (⟨s1.nextPageId, 0⟩ : Page) :=
    getD_set_self _ _ _ _ hfrlen
  refine ⟨_, heq, rfl, ?_, by rw [hfrm]; try rfl, by rw [hfrm]; try rfl,
    by rw [hfrm]; try rfl, by rw [hfrm]; try rfl, by rw [hfrm]; try rfl,
    by rw [hfrm]; try rfl, by rw [hpl]; try rfl⟩
  show htLookup (((f, s1.nextPageId), fr) :: s1.hashTable)
    f s1.nextPageId = some fr
  unfold htLookup
  rw [List.find?_cons_of_pos _ (by simp)]
  rfl

/-- Post-allocBuf state of the witness run of the amended C9 theorem. -/
def s1After9 : BufState :=
  match allocBuf 2 { sDirty with accesses := sDirty.accesses + 1 } with
  | some (_, t) => t
  | none => sDirty

theorem claim9_allocPage_amended_witness :
    ∃ t, allocPage 2 8 sDirty = some (.ok (s1After9.nextPageId, 0), t) ∧
      t.events = s1After9.events ++ [Ev.alloc 8] ∧
      htLookup t.hashTable 8 s1After9.nextPageId = some 0 ∧
      (frameAt t 0).valid = true ∧
      (frameAt t 0).pinCnt = 1 ∧
      (frameAt t 0).refbit = true ∧
      (frameAt t 0).dirty = false ∧
      (frameAt t 0).file = some 8 ∧
      (frameAt t 0).pageNo = s1After9.nextPageId ∧
      (poolAt t 0).page_number = s1After9.nextPageId :=
  claim9_allocPage_amended 2 8 Inv_sDirty (by decide) (by decide)

theorem Inv_sPinned : Inv sPinned := by
  refine ⟨by decide, by decide, by decide, by decide, by decide, by decide,
    by decide, by decide, ?_, by decide⟩
  intro i hi j hj _ _ _
  have h1 : i < 1 := hi
  have h2 : j < 1 := hj
  omega

/-- C10 (implicit frame effect of a cache hit): when (f, p) is in the
index at frame fr, readPage changes only that frame's refbit (to true)
and pin count (plus one); its dirty flag, owner, page number and valid
flag are unchanged, every other frame, the pool, the clock hand, the
index and the event log are unchanged. -/
theorem claim10_hit_effect (laps f p : Nat) {s : BufState} {fr : Nat}
    (hInv : Inv s) (hlk : htLookup s.hashTable f p = some fr) :
    ∃ t, readPage laps f p s = some (.ok (some fr), t) ∧
      t.hashTable = s.hashTable ∧
      t.clockHand = s.clockHand ∧
      t.bufPool = s.bufPool ∧
      t.events = s.events ∧
      t.numBufs = s.numBufs ∧
      t.accesses = s.accesses + 1 ∧
      (frameAt t fr).refbit = true ∧
      (frameAt t fr).pinCnt = (frameAt s fr).pinCnt + 1 ∧
      (frameAt t fr).dirty = (frameAt s fr).dirty ∧
      (frameAt t fr).file = (frameAt s fr).file ∧
      (frameAt t fr).pageNo = (frameAt s fr).pageNo ∧
      (frameAt t fr).valid = (frameAt s fr).valid ∧
      (∀ k, k ≠ fr → frameAt t k = frameAt s k) := by
  obtain ⟨hfrn, hfv, hok⟩ := Inv_lookup hInv hlk
  have hlt : fr < s.bufDescTable.length := by
    have := hInv.2.1
    omega
  have hself : frameAt (setFrame { s with accesses := s.accesses + 1 } fr
      { frameAt s fr with
        refbit := true,
        pinCnt := (frameAt s fr).pinCnt + 1 }) fr =
      { frameAt s fr with
        refbit := true,
        pinCnt := (frameAt s fr).pinCnt + 1 } :=
    frameAt_setFrame_self { s with accesses := s.accesses + 1 } fr _ hlt
  refine ⟨setFrame { s with accesses := s.accesses + 1 } fr
      { frameAt s fr with
        refbit := true,
        pinCnt := (frameAt s fr).pinCnt + 1 },
    readPage_hit_eq laps f p s hlk, rfl, rfl, rfl, rfl, rfl, rfl,
    by rw [hself], by rw [hself], by rw [hself], by rw [hself],
    by rw [hself], by rw [hself], ?_⟩
  intro k hk
  exact frameAt_setFrame_ne { s with accesses := s.accesses + 1 }
    fr k _ (Ne.symm hk)

theorem claim10_hit_effect_witness :
    ∃ t, readPage 2 7 42 sPinned = some (.ok (some 0), t) ∧
      t.hashTable = sPinned.hashTable ∧
      t.clockHand = sPinned.clockHand ∧
      t.bufPool = sPinned.bufPool ∧
      t.events = sPinned.events ∧
      t.numBufs = sPinned.numBufs ∧
      t.accesses = sPinned.accesses + 1 ∧
      (frameAt t 0).refbit = true ∧
      (frameAt t 0).pinCnt = (frameAt sPinned 0).pinCnt + 1 ∧
      (frameAt t 0).dirty = (frameAt sPinned 0).dirty ∧
      (frameAt t 0).file = (frameAt sPinned 0).file ∧
      (frameAt t 0).pageNo = (frameAt sPinned 0).pageNo ∧
      (frameAt t 0).valid = (frameAt sPinned 0).valid ∧
      (∀ k, k ≠ 0 → frameAt t k = frameAt sPinned k) :=
  claim10_hit_effect 2 7 42 Inv_sPinned (by decide)

end BadgerDB
